import Mathlib

/-!
Verification development for the HyperPosition / SKiPTRACE neural-network
repository.  The JavaScript sources are shallowly embedded: numbers are
modelled as exact rationals (`ℚ`) except where `Math.sqrt` / `Math.cos` /
`Math.sin` force real numbers (`ℝ`); JavaScript 32-bit integer coercion
(`hash & hash`, `<< 5`) is modelled explicitly on `ℤ`; `Uint8Array` bit
patterns become `List Bool`, where reading past the end of an array yields
`undefined`, which is falsy, i.e. `false` (`List.getD _ _ false`);
`Math.random()` draws are made explicit inputs of the functions that
consume them.
-/


namespace Sparse

/-- Embeds `SparseHyperpositionEncoder`'s constructor state
(`SparseDistributed.js`).  `seeds` is the list produced by `generateSeeds`
(100 draws of `Math.floor(Math.random() * 2147483647)`); it is kept as data
because it is random. -/
structure Encoder where
  dimensions : ℕ
  sparsity : ℚ
  seeds : List ℤ
deriving DecidableEq

/-- Embeds `this.activeBits = Math.floor(dimensions * sparsity)`. -/
def Encoder.activeBits (e : Encoder) : ℕ :=
  (⌊(e.dimensions : ℚ) * e.sparsity⌋).toNat

/-- JavaScript `x & x` on a number: coercion to a signed 32-bit integer. -/
def toInt32 (n : ℤ) : ℤ :=
  (n + 2 ^ 31) % 2 ^ 32 - 2 ^ 31

/-- The UTF-16 code units of a string, as read by `charCodeAt` (all the
concrete strings used below are ASCII, where code units and code points
agree). -/
def charCodes (s : String) : List ℤ :=
  s.toList.map (fun c => (c.toNat : ℤ))

/-- Embeds `SparseHyperpositionEncoder.hashFunction(input, seed)`:
`hash` starts at `seeds[seed % seeds.length]`, then for each character
`hash = ((hash << 5) - hash) + charCode; hash = hash & hash`, and the
result is `Math.abs(hash)`.  `hash << 5` itself truncates to 32 bits. -/
def hashFunction (e : Encoder) (input : String) (seed : ℕ) : ℤ :=
  |(charCodes input).foldl
      (fun hash c => toInt32 (toInt32 (hash * 32) - hash + c))
      (e.seeds.getD (seed % e.seeds.length) 0)|

/-- The bit index written by iteration `i` of `encode`'s loop:
`this.hashFunction(concept, i) % this.dimensions`. -/
def hashIndex (e : Encoder) (concept : String) (i : ℕ) : ℕ :=
  (hashFunction e concept i).toNat % e.dimensions

/-- Embeds the pattern built by `SparseHyperpositionEncoder.encode` for a
concept not yet in `conceptMemory`: a fresh zero pattern of length
`dimensions` with bit `hashFunction(concept, i) % dimensions` set for every
`i < activeBits`. -/
def encodePattern (e : Encoder) (concept : String) : List Bool :=
  (List.range e.activeBits).foldl
    (fun pattern i => pattern.set (hashIndex e concept i) true)
    (List.replicate e.dimensions false)

/-- Embeds `SparseHyperpositionEncoder.superpose(patterns)`: OR the
patterns into a fresh zero array, index by index up to `dimensions`
(a missing entry is `undefined`, which is falsy). -/
def superpose (e : Encoder) (patterns : List (List Bool)) : List Bool :=
  patterns.foldl
    (fun superposition pattern =>
      (List.range e.dimensions).map
        (fun i => superposition.getD i false || pattern.getD i false))
    (List.replicate e.dimensions false)

/-- Embeds `SparseHyperpositionEncoder.findInterference(pattern1,
pattern2)`: the AND pattern together with
`strength = overlapCount / this.activeBits`. -/
def findInterference (e : Encoder) (pattern1 pattern2 : List Bool) :
    List Bool × ℚ :=
  let interference := (List.range e.dimensions).map
    (fun i => pattern1.getD i false && pattern2.getD i false)
  (interference, (interference.count true : ℚ) / (e.activeBits : ℚ))

/-- Embeds `SparseHyperpositionEncoder.calculateResonance(pattern1,
pattern2)`: Jaccard overlap/union over indices `< dimensions`, with result
0 when the union is empty. -/
def calculateResonance (e : Encoder) (pattern1 pattern2 : List Bool) : ℚ :=
  let overlap := ((List.range e.dimensions).filter
    (fun i => pattern1.getD i false && pattern2.getD i false)).length
  let union := ((List.range e.dimensions).filter
    (fun i => pattern1.getD i false || pattern2.getD i false)).length
  if 0 < union then (overlap : ℚ) / (union : ℚ) else 0

/-- The constant `Math.PI`, exactly as the IEEE-754 double the JavaScript engine uses
(`0x400921FB54442D18` = `884279719003555 / 2^48`). -/
def jsPI : ℚ := 884279719003555 / 281474976710656

/-- Embeds `SparseHyperpositionEncoder.applyPhase(pattern, phase)`:
for `phase === 0` the input array itself is returned; otherwise the
indices of active bits are rotated by
`Math.floor((phase / (2π)) * activeBits)` modulo `dimensions` into a fresh
zero array. -/
def applyPhase (e : Encoder) (pattern : List Bool) (phase : ℚ) : List Bool :=
  if phase = 0 then pattern
  else
    let shift := (⌊phase / (2 * jsPI) * (e.activeBits : ℚ)⌋).toNat
    let activeIndices := (List.range e.dimensions).filter
      (fun i => pattern.getD i false)
    activeIndices.foldl
      (fun phased i => phased.set ((i + shift) % e.dimensions) true)
      (List.replicate e.dimensions false)

/-- Embeds `SparseHyperpositionEncoder.weightedSuperpose(patterns)`:
accumulate `pattern[i] * weight` per index and threshold at 0.5. -/
def weightedSuperpose (e : Encoder) (patterns : List (List Bool × ℚ)) :
    List Bool :=
  let result := patterns.foldl
    (fun acc pw =>
      (List.range e.dimensions).map
        (fun i => acc.getD i 0 + (if pw.1.getD i false then pw.2 else 0)))
    (List.replicate e.dimensions (0 : ℚ))
  (List.range e.dimensions).map (fun i => decide (1 / 2 < result.getD i 0))

/-- A pattern adjusted to exactly `dimensions` entries the way the loops
read it: missing entries (JavaScript `undefined`, falsy) become `false`,
entries beyond `dimensions` are dropped. -/
def normalizePattern (e : Encoder) (p : List Bool) : List Bool :=
  (List.range e.dimensions).map (fun i => p.getD i false)

end Sparse

namespace SparseRef

open Sparse

/-- Heap model for `Uint8Array` object identity: pattern objects live in a
store and operations return references (store indices).  JavaScript
object identity is reference equality; `conceptMemory` maps concepts to
references. -/
structure EncState where
  store : List (List Bool)
  memory : List (String × ℕ)
deriving DecidableEq

/-- Allocation of a fresh array object (`new Uint8Array(...)`): the new
object's reference is the previous store length. -/
def alloc (σ : EncState) (v : List Bool) : ℕ × EncState :=
  (σ.store.length, ⟨σ.store ++ [v], σ.memory⟩)

/-- Dereference a pattern object. -/
def readRef (σ : EncState) (r : ℕ) : List Bool := σ.store.getD r []

/-- A caller mutating a returned array object in place. -/
def writeRef (σ : EncState) (r : ℕ) (v : List Bool) : EncState :=
  ⟨σ.store.set r v, σ.memory⟩

/-- Embeds `conceptMemory.get`, in `Map` insertion order. -/
def lookupConcept : List (String × ℕ) → String → Option ℕ
  | [], _ => none
  | p :: rest, c => if p.1 = c then some p.2 else lookupConcept rest c

/-- Embeds `encode` with its memoization: a concept already in
`conceptMemory` returns the *stored reference*; otherwise a fresh pattern
object is allocated and remembered. -/
def encodeRef (e : Encoder) (σ : EncState) (c : String) : ℕ × EncState :=
  match lookupConcept σ.memory c with
  | some r => (r, σ)
  | none =>
    (σ.store.length,
     ⟨σ.store ++ [encodePattern e c],
      σ.memory ++ [(c, σ.store.length)]⟩)

/-- Reference-level `superpose`: allocates a fresh output array and only reads its
inputs. -/
def superposeRef (e : Encoder) (σ : EncState) (rs : List ℕ) :
    ℕ × EncState :=
  alloc σ (superpose e (rs.map (readRef σ)))

/-- Reference-level `findInterference`: allocates a fresh interference array and only
reads its inputs. -/
def findInterferenceRef (e : Encoder) (σ : EncState) (r1 r2 : ℕ) :
    ℕ × EncState :=
  alloc σ (findInterference e (readRef σ r1) (readRef σ r2)).1

/-- Reference-level `weightedSuperpose`: allocates a fresh binary array and only reads its
inputs. -/
def weightedSuperposeRef (e : Encoder) (σ : EncState)
    (rws : List (ℕ × ℚ)) : ℕ × EncState :=
  alloc σ (weightedSuperpose e (rws.map (fun rw => (readRef σ rw.1, rw.2))))

/-- Reference-level `applyPhase`: for `phase === 0` the input array object itself is
returned (no copy); otherwise a fresh array is allocated. -/
def applyPhaseRef (e : Encoder) (σ : EncState) (r : ℕ) (phase : ℚ) :
    ℕ × EncState :=
  if phase = 0 then (r, σ)
  else alloc σ (applyPhase e (readRef σ r) phase)

/-- Every reference recorded in `conceptMemory` points into the store. -/
def wf (σ : EncState) : Prop := ∀ p ∈ σ.memory, p.2 < σ.store.length

end SparseRef

namespace BiHam

/-- The fields of `BiHamiltonianToken` read by `checkDivergence` and
`isStable` (`BiHamiltonianStability.js`): the two stored Hamiltonian
energies, the stored third/fourth derivatives, and the divergence
threshold (0.3 in the constructor). -/
structure BHState where
  H1_coherence : ℚ
  H2_structure : ℚ
  jerk : ℚ
  snap : ℚ
  divergenceThreshold : ℚ
deriving DecidableEq

/-- The object `checkDivergence` returns when the energies diverge. -/
structure DivergenceReport where
  warning : String
  divergence : ℚ
  H1 : ℚ
  H2 : ℚ
  recommendation : String
deriving DecidableEq

/-- Embeds `BiHamiltonianToken.checkDivergence()`: report a ghost state
when `|H1 - H2| > divergenceThreshold`, else `null`. -/
def checkDivergence (t : BHState) : Option DivergenceReport :=
  let divergence := |t.H1_coherence - t.H2_structure|
  if t.divergenceThreshold < divergence then
    some ⟨"GHOST_STATE_EMERGING", divergence, t.H1_coherence,
      t.H2_structure,
      if t.H2_structure < t.H1_coherence then "Strengthen structure"
      else "Increase coherence"⟩
  else none

/-- Embeds `BiHamiltonianToken.isStable()`:
`divergence < threshold && !(|jerk| > 1.0) && !(|snap| > 2.0)`. -/
def isStable (t : BHState) : Bool :=
  let divergence := |t.H1_coherence - t.H2_structure|
  let highJerk := decide (1 < |t.jerk|)
  let highSnap := decide (2 < |t.snap|)
  decide (divergence < t.divergenceThreshold) && !highJerk && !highSnap

end BiHam

namespace Emo

/-- One entry of `emotionalState.components`: `{weight, phase}`.  (The
`timestamp` field is wall-clock time and is never read by the functions
verified here, so it is not modelled.) -/
structure EmoComp (K : Type) where
  weight : K
  phase : K
deriving DecidableEq

/-- The 8-dimensional state vector `this.dimensions` of
`HyperpositionToken`, in iteration order. -/
structure Dims (K : Type) where
  semantic : K
  temporal : K
  causal : K
  emotional : K
  relational : K
  probability : K
  energy : K
  coherence : K
deriving DecidableEq

/-- The part of `EmotionalHyperpositionToken` read and written by
`recalculateSuperposition`, `collapseEmotional` and
`calculateCoherenceEnergy`.  A JavaScript `Map` key may be `null` (and
`collapseEmotional` can in fact store one, see C9), so keys are
`Option String` with `none` standing for `null`.  The field `coherence`
is `emotionalState.coherence`. -/
structure EmoState (K : Type) where
  dims : Dims K
  components : List (Option String × EmoComp K)
  collapsed : Bool
  coherence : K
deriving DecidableEq

/-- Embeds `EmotionalHyperpositionToken.collapseEmotional(trigger)`: an
early return (`undefined`, modelled `none`) when already collapsed;
otherwise scan the components for the first strictly-largest weight
(starting from `maxWeight = 0`, `dominantEmotion = null`), clear the map,
store `{weight: 1, phase: 0}` under that key, set `collapsed` and
`dimensions.emotional = 1`, and return the key. -/
def collapseEmotional {K : Type} [LinearOrderedField K] (s : EmoState K) :
    EmoState K × Option (Option String) :=
  if s.collapsed then (s, none)
  else
    let dom := (s.components.foldl
      (fun acc kc =>
        if acc.1 < kc.2.weight then (kc.2.weight, kc.1) else acc)
      ((0 : K), (none : Option String))).2
    (⟨⟨s.dims.semantic, s.dims.temporal, s.dims.causal, 1,
       s.dims.relational, s.dims.probability, s.dims.energy,
       s.dims.coherence⟩,
      [(dom, ⟨1, 0⟩)], true, s.coherence⟩, some dom)

/-- Embeds `EmotionalHyperpositionToken.recalculateSuperposition()`:
accumulate `total.real += w·cos(phase)`, `total.imaginary += w·sin(phase)`
over the components, set `dimensions.emotional` to the magnitude
`sqrt(real² + imag²)`, and store
`coherence = 0` when `numComponents > 1 && magnitude < 0.3` (destructive
interference), else `magnitude / numComponents`. -/
noncomputable def recalculateSuperposition (s : EmoState ℝ) : EmoState ℝ :=
  let total := s.components.foldl
    (fun acc kc => (acc.1 + kc.2.weight * Real.cos kc.2.phase,
                    acc.2 + kc.2.weight * Real.sin kc.2.phase))
    ((0 : ℝ), (0 : ℝ))
  let magnitude := Real.sqrt (total.1 ^ 2 + total.2 ^ 2)
  let numComponents := s.components.length
  let coherence :=
    if 1 < numComponents ∧ magnitude < 3/10 then 0
    else magnitude / (numComponents : ℝ)
  ⟨⟨s.dims.semantic, s.dims.temporal, s.dims.causal, magnitude,
    s.dims.relational, s.dims.probability, s.dims.energy,
    s.dims.coherence⟩,
   s.components, s.collapsed, coherence⟩

/-- The sum `Σ dim this.dimensions[dim]²`, in iteration order. -/
def sumSqDims (d : Dims ℝ) : ℝ :=
  d.semantic ^ 2 + d.temporal ^ 2 + d.causal ^ 2 + d.emotional ^ 2 +
    d.relational ^ 2 + d.probability ^ 2 + d.energy ^ 2 + d.coherence ^ 2

/-- Embeds `BiHamiltonianToken.calculateCoherenceEnergy()`:
`sqrt(Σ dim² + emotionalState.coherence)` (the emotional state object is
always truthy, so its stored coherence is always added). -/
noncomputable def calculateCoherenceEnergy (s : EmoState ℝ) : ℝ :=
  Real.sqrt (sumSqDims s.dims + s.coherence)

/-- The phase-weighted vector-sum magnitude exactly as the claim words it:
`sqrt((Σ w·cos(phase))² + (Σ w·sin(phase))²)`. -/
noncomputable def affectiveMagnitude
    (comps : List (Option String × EmoComp ℝ)) : ℝ :=
  Real.sqrt ((comps.map (fun kc => kc.2.weight * Real.cos kc.2.phase)).sum ^ 2
    + (comps.map (fun kc => kc.2.weight * Real.sin kc.2.phase)).sum ^ 2)

/-- The claimed H1: `sqrt(Σ feature² + affectiveCoherence)` with
`affectiveCoherence` equal to the magnitude itself. -/
noncomputable def claimedCoherenceEnergy (s : EmoState ℝ) : ℝ :=
  Real.sqrt (sumSqDims s.dims + affectiveMagnitude s.components)

/-- The concrete token used in the C7 counterexample: two components of
weight 1 and phase 0. -/
noncomputable def c7token : EmoState ℝ :=
  ⟨⟨0, 0, 0, 0, 0, 0, 0, 0⟩,
   [(some "joy", ⟨1, 0⟩), (some "love", ⟨1, 0⟩)], false, 0⟩

end Emo

namespace Skip

/-- A `HyperpositionToken` as the skip-trace engine reads it.  The `id`
field models JavaScript object identity (two distinct token objects are
distinct even with equal dimension values); `universal` is the universal
token type used for trace signatures; the eight dimensions are those of
`HyperpositionToken`'s constructor. -/
structure HToken where
  id : ℕ
  universal : String
  dims : Emo.Dims ℚ
deriving DecidableEq

/-- Fallback for out-of-range list reads; never actually read by the
verified code paths. -/
def noToken : HToken := ⟨0, "", ⟨0, 0, 0, 0, 0, 0, 0, 0⟩⟩

/-- Embeds `SkipTraceEngine`'s constructor state: `this.tokens`, the
`threshold` parameter (default 0.3), and the fixed fields
`energy = 1.0`, `maxTraceLength = 10`, `branchingFactor = 3`.  The
score weights `{causal: 0.3, emotional: 0.25, semantic: 0.25,
temporal: 0.2}` are fixed in the constructor and inlined below. -/
structure Engine where
  tokens : List HToken
  threshold : ℚ
  energy : ℚ
  maxTraceLength : ℕ
  branchingFactor : ℕ
deriving DecidableEq

/-- Embeds `new SkipTraceEngine(tokens)` with the default threshold. -/
def defaultEngine (tokens : List HToken) : Engine :=
  ⟨tokens, 3/10, 1, 10, 3⟩

/-- Embeds `SkipTraceEngine.causalStrength(from, to)`. -/
def causalStrength (a b : HToken) : ℚ :=
  let causalProduct := a.dims.causal * b.dims.causal
  let causalFlow : ℚ :=
    if a.dims.causal < b.dims.causal then 12/10 else 8/10
  min 1 (causalProduct * causalFlow)

/-- Embeds `SkipTraceEngine.emotionalResonance(from, to)`. -/
def emotionalResonance (a b : HToken) : ℚ :=
  let emotionalDiff := |a.dims.emotional - b.dims.emotional|
  let resonance := 1 - emotionalDiff
  let emotionalIntensity := (a.dims.emotional + b.dims.emotional) / 2
  resonance * (1/2 + emotionalIntensity * (1/2))

/-- Embeds `SkipTraceEngine.semanticDistance(from, to)`. -/
def semanticDistance (a b : HToken) : ℚ :=
  |a.dims.semantic - b.dims.semantic|

/-- Embeds `SkipTraceEngine.temporalFlow(from, to)`. -/
def temporalFlow (a b : HToken) : ℚ :=
  let temporalDiff := b.dims.temporal - a.dims.temporal
  if 0 < temporalDiff then min 1 (temporalDiff * 2)
  else max 0 (1 + temporalDiff * (1/2))

/-- Embeds `SkipTraceEngine.skipScore(from, to)` with the constructor's
weights. -/
def skipScore (a b : HToken) : ℚ :=
  (3/10) * causalStrength a b + (25/100) * emotionalResonance a b +
    (25/100) * (1 - semanticDistance a b) + (2/10) * temporalFlow a b

/-- Embeds `SkipTraceEngine.calculateEnergyCost(from, to)`. -/
def calculateEnergyCost (a b : HToken) : ℚ :=
  let distance := semanticDistance a b
  let energyFactor := (a.dims.energy + b.dims.energy) / 2
  distance * (1 - energyFactor * (1/2))

/-- Stable insertion into a list sorted by descending key: an element
moves past every element with a key at least as large, exactly like a
stable JavaScript `sort((a,b) => bKey - aKey)` keeps earlier equal-key
elements first. -/
def insertDescBy {α : Type} (key : α → ℚ) (x : α) : List α → List α
  | [] => [x]
  | y :: ys => if key x ≤ key y then y :: insertDescBy key x ys
               else x :: y :: ys

/-- Stable descending sort by a rational key (the behaviour of
`Array.prototype.sort` with a numeric comparator, which is stable per the
ECMAScript specification). -/
def sortDescBy {α : Type} (key : α → ℚ) (l : List α) : List α :=
  l.foldl (fun acc x => insertDescBy key x acc) []

/-- Embeds `SkipTraceEngine.findSkipCandidates(fromToken, currentPath)`:
skip tokens already in the path, keep scores strictly above the
threshold, sort descending by score. -/
def findSkipCandidates (eng : Engine) (fromToken : HToken)
    (currentPath : List HToken) : List (HToken × ℚ) :=
  sortDescBy (fun c => c.2)
    (eng.tokens.filterMap (fun toToken =>
      if toToken ∈ currentPath then none
      else
        let score := skipScore fromToken toToken
        if eng.threshold < score then some (toToken, score) else none))

/-- A trace record `{path, energy, complete}` plus the `coherence` field
`generateTraces` adds afterwards (0 until assigned). -/
structure Trace where
  path : List HToken
  energy : ℚ
  complete : Bool
  coherence : ℚ
deriving DecidableEq

/-- Embeds the recursion `SkipTraceEngine.traceFromToken(currentToken,
path, remainingEnergy)`.  The first argument is the recursion depth still
available, `maxTraceLength + 1 - path.length`; the JavaScript recursion
terminates precisely because this quantity decreases, and the `fuel = 0`
case coincides with the code's own terminal case
`path.length >= maxTraceLength`.  The wrapper `traceFromToken` below
always supplies the exact value, so this is the JavaScript function. -/
def traceFromTokenAux (eng : Engine) :
    ℕ → HToken → List HToken → ℚ → List Trace
  | 0, currentToken, path, remainingEnergy =>
    [⟨path ++ [currentToken], eng.energy - remainingEnergy, true, 0⟩]
  | fuel + 1, currentToken, path, remainingEnergy =>
    if eng.maxTraceLength ≤ path.length ∨ remainingEnergy < 1/10 then
      [⟨path ++ [currentToken], eng.energy - remainingEnergy, true, 0⟩]
    else
      let newPath := path ++ [currentToken]
      let skipCandidates := findSkipCandidates eng currentToken newPath
      if skipCandidates.isEmpty then
        [⟨newPath, eng.energy - remainingEnergy, false, 0⟩]
      else
        ((skipCandidates.take eng.branchingFactor).map (fun candidate =>
          traceFromTokenAux eng fuel candidate.1 newPath
            (remainingEnergy -
              calculateEnergyCost currentToken candidate.1))).flatten

/-- Embeds `SkipTraceEngine.traceFromToken` proper. -/
def traceFromToken (eng : Engine) (currentToken : HToken)
    (path : List HToken) (remainingEnergy : ℚ) : List Trace :=
  traceFromTokenAux eng (eng.maxTraceLength + 1 - path.length)
    currentToken path remainingEnergy

/-- Embeds `SkipTraceEngine.findAnchors()`: tokens sorted by descending
energy, keeping `max(1, ceil(0.3 · |tokens|))` of them. -/
def findAnchors (eng : Engine) : List HToken :=
  let sorted := sortDescBy (fun t => t.dims.energy) eng.tokens
  let anchorCount := max 1 (⌈(eng.tokens.length : ℚ) * (3/10)⌉).toNat
  sorted.take anchorCount

/-- The signature `pruneTraces` deduplicates on:
`trace.path.map(t => t.universal).join('-')`. -/
def traceSignature (trace : Trace) : String :=
  String.intercalate "-" (trace.path.map (fun t => t.universal))

/-- Embeds `SkipTraceEngine.pruneTraces(traces)`: drop traces whose
signature was already seen or whose path is shorter than 3. -/
def pruneTraces (traces : List Trace) : List Trace :=
  (traces.foldl (fun acc trace =>
    if acc.2.contains (traceSignature trace) then acc
    else if trace.path.length < 3 then acc
    else (acc.1 ++ [trace], acc.2 ++ [traceSignature trace]))
    (([] : List Trace), ([] : List String))).1

/-- Embeds `HyperpositionToken.calculateDistancePenalty`: the
`Math.random()` draw is the explicit argument `rand`, giving
`0.8 + rand * 0.2`. -/
def calculateDistancePenalty (rand : ℚ) : ℚ := 8/10 + rand * (2/10)

/-- Embeds `HyperpositionToken.resonanceWith(other)` with its
`Math.random()` draw explicit: the dimension loop unrolled in iteration
order with the `getResonanceWeight` table, then multiplied by the
distance penalty. -/
def resonanceWith (a b : HToken) (rand : ℚ) : ℚ :=
  let totalResonance :=
    (1 - |a.dims.semantic - b.dims.semantic|) * (25/100) +
    (1 - |a.dims.temporal - b.dims.temporal|) * (10/100) +
    (1 - |a.dims.causal - b.dims.causal|) * (20/100) +
    (1 - |a.dims.emotional - b.dims.emotional|) * (15/100) +
    (1 - |a.dims.relational - b.dims.relational|) * (10/100) +
    (1 - |a.dims.probability - b.dims.probability|) * (5/100) +
    (1 - |a.dims.energy - b.dims.energy|) * (10/100) +
    (1 - |a.dims.coherence - b.dims.coherence|) * (5/100)
  totalResonance * calculateDistancePenalty rand

/-- The index pairs `(i, j)`, `i < j`, in the nested-loop order of
`calculateTraceCoherence`. -/
def pairIndices (n : ℕ) : List (ℕ × ℕ) :=
  (List.range n).flatMap (fun i =>
    (List.range (n - i - 1)).map (fun k => (i, i + 1 + k)))

/-- Embeds `SkipTraceEngine.calculateTraceCoherence(trace)`: mean
pairwise `resonanceWith` over all pairs (each consuming one
`Math.random()` draw, supplied by `rand` in loop order), plus the energy
bonus, capped at 1. -/
def calculateTraceCoherence (eng : Engine) (trace : Trace)
    (rand : ℕ → ℚ) : ℚ :=
  let n := trace.path.length
  if n < 2 then 0
  else
    let pairs := pairIndices n
    let totalResonance := (pairs.enum.map (fun kij =>
      resonanceWith (trace.path.getD kij.2.1 noToken)
        (trace.path.getD kij.2.2 noToken) (rand kij.1))).sum
    let connections := pairs.length
    let coherence :=
      if 0 < connections then totalResonance / (connections : ℚ) else 0
    let energyBonus := (1 - trace.energy / eng.energy) * (2/10)
    min 1 (coherence + energyBonus)

/-- The assignment `trace.coherence = ...`. -/
def Trace.withCoherence (t : Trace) (c : ℚ) : Trace :=
  ⟨t.path, t.energy, t.complete, c⟩

/-- Embeds `SkipTraceEngine.generateTraces()`: traces from every anchor,
pruned, each assigned its coherence (`rand i` is the `Math.random()`
stream consumed while scoring the `i`-th pruned trace), then sorted by
descending coherence. -/
def generateTraces (eng : Engine) (rand : ℕ → ℕ → ℚ) : List Trace :=
  let anchors := findAnchors eng
  let traces := (anchors.map (fun anchor =>
    traceFromToken eng anchor [] eng.energy)).flatten
  let pruned := pruneTraces traces
  let withCoherence := pruned.enum.map (fun itr =>
    itr.2.withCoherence (calculateTraceCoherence eng itr.2 (rand itr.1)))
  sortDescBy (fun t => t.coherence) withCoherence

/-- The uniform dimension vector `1/8` everywhere (a reachable
`HyperpositionToken` state: the constructor normalizes the random draws
to sum 1). -/
def unifDims : Emo.Dims ℚ := ⟨1/8, 1/8, 1/8, 1/8, 1/8, 1/8, 1/8, 1/8⟩

/-- Three distinct token objects with identical dimension vectors. -/
def threeTokens : List HToken :=
  [⟨0, "X", unifDims⟩, ⟨1, "X", unifDims⟩, ⟨2, "X", unifDims⟩]

/-- Eleven distinct token objects with identical dimension vectors
(`1/8` everywhere). -/
def elevenTokens : List HToken := (List.range 11).map
  (fun i => ⟨i, "X", unifDims⟩)

/-- The `k`-th of the eleven tokens. -/
def tok (k : ℕ) : HToken := elevenTokens.getD k noToken

/-- The trace through all eleven tokens that the engine produces. -/
def fullTrace : Trace := ⟨elevenTokens, 0, true, 0⟩

/-- The dimension values in iteration order. -/
def dimValues (d : Emo.Dims ℚ) : List ℚ :=
  [d.semantic, d.temporal, d.causal, d.emotional, d.relational,
   d.probability, d.energy, d.coherence]

/-- The `getResonanceWeight` table, in the same order. -/
def dimWeights : List ℚ :=
  [25/100, 10/100, 20/100, 15/100, 10/100, 5/100, 10/100, 5/100]

/-- The pairwise resonance exactly as the claim words it:
`Σ_dim (1 − |a_dim − b_dim|) · dimWeight_dim` — no distance penalty. -/
def claimResonance (a b : HToken) : ℚ :=
  ((((dimValues a.dims).zip (dimValues b.dims)).zip dimWeights).map
    (fun p => (1 - |p.1.1 - p.1.2|) * p.2)).sum

/-- The coherence score exactly as the claim words it: mean of
`claimResonance` over the `n(n-1)/2` pairs plus the energy bonus, capped
at 1; 0 for fewer than 2 tokens. -/
def claimCoherence (eng : Engine) (trace : Trace) : ℚ :=
  if trace.path.length < 2 then 0
  else
    min 1 (((pairIndices trace.path.length).map (fun ij =>
      claimResonance (trace.path.getD ij.1 noToken)
        (trace.path.getD ij.2 noToken))).sum /
      ((trace.path.length * (trace.path.length - 1) / 2 : ℕ) : ℚ) +
      (1 - trace.energy / eng.energy) * (2/10))

end Skip

namespace Sparse

/-- Reading any index of an all-zero pattern yields `false`. -/
theorem getD_replicate_false (n i : ℕ) :
    (List.replicate n false).getD i false = false := by
  simp only [List.getD_eq_getElem?_getD, List.getElem?_replicate]
  split <;> simp

/-- The overlap count never exceeds the union count. -/
theorem overlap_le_union (e : Encoder) (p1 p2 : List Bool) :
    ((List.range e.dimensions).filter
      (fun i => p1.getD i false && p2.getD i false)).length ≤
    ((List.range e.dimensions).filter
      (fun i => p1.getD i false || p2.getD i false)).length := by
  rw [← List.countP_eq_length_filter, ← List.countP_eq_length_filter]
  apply List.countP_mono_left
  intro i _ h
  rw [Bool.and_eq_true] at h
  rw [h.1]
  rfl

/-- Resonance is nonnegative and at most 1. -/
theorem calculateResonance_bounds (e : Encoder) (p1 p2 : List Bool) :
    0 ≤ calculateResonance e p1 p2 ∧ calculateResonance e p1 p2 ≤ 1 := by
  unfold calculateResonance
  set ov := ((List.range e.dimensions).filter
    (fun i => p1.getD i false && p2.getD i false)).length with hov
  set un := ((List.range e.dimensions).filter
    (fun i => p1.getD i false || p2.getD i false)).length with hun
  by_cases h : 0 < un
  · have hle : (ov : ℚ) ≤ (un : ℚ) := by
      exact_mod_cast (hov ▸ hun ▸ overlap_le_union e p1 p2)
    have hun' : (0 : ℚ) < (un : ℚ) := by exact_mod_cast h
    constructor
    · simp only [if_pos h]
      positivity
    · simp only [if_pos h]
      rw [div_le_one hun']
      exact hle
  · simp [h]

/-- Resonance is symmetric in its two pattern arguments. -/
theorem calculateResonance_comm (e : Encoder) (p1 p2 : List Bool) :
    calculateResonance e p1 p2 = calculateResonance e p2 p1 := by
  unfold calculateResonance
  have hA : (fun i => p1.getD i false && p2.getD i false) =
      (fun i => p2.getD i false && p1.getD i false) := by
    funext i; exact Bool.and_comm _ _
  have hO : (fun i => p1.getD i false || p2.getD i false) =
      (fun i => p2.getD i false || p1.getD i false) := by
    funext i; exact Bool.or_comm _ _
  rw [hA, hO]

/-- For a pattern with at least one active bit below `dimensions`,
self-resonance is exactly 1. -/
theorem calculateResonance_self (e : Encoder) (p : List Bool)
    (h : ∃ i, i < e.dimensions ∧ p.getD i false = true) :
    calculateResonance e p p = 1 := by
  unfold calculateResonance
  have hsame : (fun i => p.getD i false && p.getD i false) =
      (fun i => p.getD i false || p.getD i false) := by
    funext i; cases p.getD i false <;> rfl
  rw [hsame]
  set un := ((List.range e.dimensions).filter
    (fun i => p.getD i false || p.getD i false)).length with hun
  have hpos : 0 < un := by
    rcases h with ⟨i, hi, hp⟩
    exact List.length_pos_of_mem
      (List.mem_filter.mpr ⟨List.mem_range.mpr hi, by rw [hp]; rfl⟩)
  have hun' : ((un : ℚ)) ≠ 0 := by
    exact_mod_cast Nat.pos_iff_ne_zero.mp hpos
  simp only [if_pos hpos]
  exact div_self hun'

/-- Self-resonance of the all-zero pattern is 0 (the union is empty, and
the division-by-zero guard returns 0). -/
theorem calculateResonance_zero (e : Encoder) :
    calculateResonance e (List.replicate e.dimensions false)
      (List.replicate e.dimensions false) = 0 := by
  unfold calculateResonance
  have : ∀ i, (List.replicate e.dimensions false).getD i false = false :=
    fun i => getD_replicate_false _ _
  simp [this]

/-- C3 counterexample: the claim asserts `resonance(a,a) = 1` for *every*
pattern `a`, but for the all-zero pattern the code returns 0 (as the claim
itself also demands), so the universal identity is false. -/
theorem c3_counterexample :
    calculateResonance ⟨5, 1/5, []⟩ (List.replicate 5 false)
        (List.replicate 5 false) = 0 ∧
    calculateResonance ⟨5, 1/5, []⟩ (List.replicate 5 false)
        (List.replicate 5 false) ≠ 1 := by
  decide

/-- C3 (amended): for all patterns `a, b` of the encoder's dimension,
`0 ≤ resonance(a,b) ≤ 1` and `resonance` is symmetric; `resonance(a,a) = 1`
for every pattern `a` with at least one active bit (the all-zero pattern
instead yields 0, a defined value, never NaN). -/
theorem c3_resonance_bounds_symm_self (e : Encoder) (p1 p2 : List Bool)
    (h : ∃ i, i < e.dimensions ∧ p1.getD i false = true) :
    (0 ≤ calculateResonance e p1 p2 ∧ calculateResonance e p1 p2 ≤ 1) ∧
    calculateResonance e p1 p2 = calculateResonance e p2 p1 ∧
    calculateResonance e p1 p1 = 1 ∧
    calculateResonance e (List.replicate e.dimensions false)
      (List.replicate e.dimensions false) = 0 :=
  ⟨calculateResonance_bounds e p1 p2, calculateResonance_comm e p1 p2,
   calculateResonance_self e p1 h, calculateResonance_zero e⟩

/-- Witness for C3 at a concrete encoder and concrete patterns. -/
theorem c3_resonance_bounds_symm_self_witness :
    (∃ i, i < (⟨2, 1, []⟩ : Encoder).dimensions ∧
      ([true] : List Bool).getD i false = true) ∧
    ((0 ≤ calculateResonance ⟨2, 1, []⟩ [true] [true, false] ∧
      calculateResonance ⟨2, 1, []⟩ [true] [true, false] ≤ 1) ∧
     calculateResonance ⟨2, 1, []⟩ [true] [true, false] =
       calculateResonance ⟨2, 1, []⟩ [true, false] [true] ∧
     calculateResonance ⟨2, 1, []⟩ [true] [true] = 1 ∧
     calculateResonance ⟨2, 1, []⟩ (List.replicate 2 false)
       (List.replicate 2 false) = 0) :=
  ⟨⟨0, by decide, by decide⟩,
   c3_resonance_bounds_symm_self ⟨2, 1, []⟩ [true] [true, false]
     ⟨0, by decide, by decide⟩⟩

/-- Reading the normalized pattern below `dimensions` agrees with reading
the raw pattern. -/
theorem normalizePattern_getD (e : Encoder) (p : List Bool) (i : ℕ)
    (hi : i < e.dimensions) :
    (normalizePattern e p).getD i false = p.getD i false := by
  simp [normalizePattern, List.getD_eq_getElem?_getD, List.getElem?_range, hi]

/-- C5 counterexample: with mismatched pattern lengths the operations do
not fail; they return ordinary values (out-of-range reads are treated as
inactive bits). -/
theorem c5_counterexample :
    calculateResonance ⟨3, 1, []⟩ [true] [true, true, true] = 1/3 ∧
    superpose ⟨3, 1, []⟩ [[true], [false, true]] = [true, true, false] ∧
    (findInterference ⟨3, 1, []⟩ [true] [true, true, true]).1 =
      [true, false, false] := by
  with_unfolding_all decide

/-- C5 (amended): the pattern operations perform no length check at all:
they behave exactly as if each argument were silently truncated or
zero-extended to the encoder's dimension, with out-of-range reads treated
as inactive, and no error reaches the caller. -/
theorem c5_silent_normalization (e : Encoder) (p1 p2 : List Bool)
    (ps : List (List Bool)) :
    calculateResonance e p1 p2 =
      calculateResonance e (normalizePattern e p1) (normalizePattern e p2) ∧
    findInterference e p1 p2 =
      findInterference e (normalizePattern e p1) (normalizePattern e p2) ∧
    superpose e ps = superpose e (ps.map (normalizePattern e)) := by
  refine ⟨?_, ?_, ?_⟩
  · unfold calculateResonance
    have h1 : (List.range e.dimensions).filter
          (fun i => p1.getD i false && p2.getD i false) =
        (List.range e.dimensions).filter
          (fun i => (normalizePattern e p1).getD i false &&
            (normalizePattern e p2).getD i false) := by
      apply List.filter_congr
      intro i hi
      rw [normalizePattern_getD e p1 i (List.mem_range.mp hi),
        normalizePattern_getD e p2 i (List.mem_range.mp hi)]
    have h2 : (List.range e.dimensions).filter
          (fun i => p1.getD i false || p2.getD i false) =
        (List.range e.dimensions).filter
          (fun i => (normalizePattern e p1).getD i false ||
            (normalizePattern e p2).getD i false) := by
      apply List.filter_congr
      intro i hi
      rw [normalizePattern_getD e p1 i (List.mem_range.mp hi),
        normalizePattern_getD e p2 i (List.mem_range.mp hi)]
    simp only [h1, h2]
  · unfold findInterference
    have h : (List.range e.dimensions).map
          (fun i => p1.getD i false && p2.getD i false) =
        (List.range e.dimensions).map
          (fun i => (normalizePattern e p1).getD i false &&
            (normalizePattern e p2).getD i false) := by
      apply List.map_congr_left
      intro i hi
      rw [normalizePattern_getD e p1 i (List.mem_range.mp hi),
        normalizePattern_getD e p2 i (List.mem_range.mp hi)]
    simp only [h]
  · unfold superpose
    suffices h : ∀ acc : List Bool,
        ps.foldl (fun superposition pattern =>
          (List.range e.dimensions).map
            (fun i => superposition.getD i false || pattern.getD i false)) acc =
        (ps.map (normalizePattern e)).foldl (fun superposition pattern =>
          (List.range e.dimensions).map
            (fun i => superposition.getD i false || pattern.getD i false)) acc by
      exact h _
    induction ps with
    | nil => intro acc; rfl
    | cons p rest ih =>
      intro acc
      simp only [List.foldl_cons, List.map_cons]
      have hstep : (List.range e.dimensions).map
            (fun i => acc.getD i false || p.getD i false) =
          (List.range e.dimensions).map
            (fun i => acc.getD i false ||
              (normalizePattern e p).getD i false) := by
        apply List.map_congr_left
        intro i hi
        rw [normalizePattern_getD e p i (List.mem_range.mp hi)]
      rw [hstep]
      exact ih _

/-- Setting bits one after the other never changes the array length
(an out-of-range `Uint8Array` write is discarded, like `List.set`). -/
theorem foldl_set_true_length (L : List ℕ) (base : List Bool) :
    (L.foldl (fun pat i => pat.set i true) base).length = base.length := by
  induction L generalizing base with
  | nil => rfl
  | cons i t ih => simpa using ih (base.set i true)

/-- A bit of the fold result is set iff it was set in the base array or its
index occurs in the list (and is in range). -/
theorem foldl_set_true_getD (L : List ℕ) (base : List Bool) (j : ℕ) :
    ((L.foldl (fun pat i => pat.set i true) base).getD j false = true ↔
      (j ∈ L ∧ j < base.length) ∨ base.getD j false = true) := by
  induction L generalizing base with
  | nil => simp
  | cons i t ih =>
    simp only [List.foldl_cons]
    rw [ih (base.set i true)]
    simp only [List.length_set, List.mem_cons]
    constructor
    · rintro (⟨hjt, hjlen⟩ | hset)
      · exact Or.inl ⟨Or.inr hjt, hjlen⟩
      · rw [List.getD_eq_getElem?_getD, List.getElem?_set] at hset
        by_cases hij : i = j
        · subst hij
          by_cases hlen : i < base.length
          · exact Or.inl ⟨Or.inl rfl, hlen⟩
          · simp [hlen] at hset
        · simp only [hij, if_false] at hset
          exact Or.inr (by rwa [List.getD_eq_getElem?_getD])
    · rintro (⟨hj | hjt, hjlen⟩ | hbase)
      · subst hj
        right
        rw [List.getD_eq_getElem?_getD, List.getElem?_set]
        simp [hjlen]
      · exact Or.inl ⟨hjt, hjlen⟩
      · by_cases hij : i = j
        · subst hij
          have hjlen : i < base.length := by
            by_contra hlen
            rw [List.getD_eq_getElem?_getD, List.getElem?_eq_none
              (Nat.le_of_not_lt hlen)] at hbase
            exact Bool.false_ne_true hbase
          right
          rw [List.getD_eq_getElem?_getD, List.getElem?_set]
          simp [hjlen]
        · right
          rw [List.getD_eq_getElem?_getD, List.getElem?_set]
          simp only [hij, if_false]
          rwa [List.getD_eq_getElem?_getD] at hbase

/-- The number of `true` bits of a boolean array equals the number of
in-range indices reading `true`. -/
theorem count_true_eq_filter_range (p : List Bool) :
    p.count true =
      ((List.range p.length).filter (fun i => p.getD i false)).length := by
  induction p with
  | nil => rfl
  | cons b t ih =>
    rw [List.count_cons]
    simp only [List.length_cons, List.range_succ_eq_map, List.filter_cons]
    have hmap : (List.filter (fun i => (b :: t).getD i false)
          ((List.range t.length).map Nat.succ)) =
        (List.map Nat.succ ((List.range t.length).filter
          (fun i => t.getD i false))) := by
      rw [List.filter_map]
      rfl
    cases b with
    | true =>
      simp only [List.getD_cons_zero, if_pos]
      rw [hmap]
      simp [ih, Nat.add_comm]
    | false =>
      simp only [List.getD_cons_zero, Bool.false_eq_true, if_false]
      rw [hmap]
      simp [ih]

/-- Setting a duplicate-free list of in-range indices in an all-zero array
produces exactly that many `true` bits. -/
theorem foldl_set_true_count (L : List ℕ) (n : ℕ) (hL : L.Nodup)
    (hlt : ∀ j ∈ L, j < n) :
    ((L.foldl (fun pat i => pat.set i true)
      (List.replicate n false)).count true) = L.length := by
  set res := L.foldl (fun pat i => pat.set i true) (List.replicate n false)
    with hres
  have hlen : res.length = n := by
    rw [hres, foldl_set_true_length, List.length_replicate]
  have hcount := count_true_eq_filter_range res
  rw [hlen] at hcount
  have hiff : ∀ j, (res.getD j false = true) ↔ j ∈ L := by
    intro j
    rw [hres, foldl_set_true_getD]
    simp only [List.length_replicate, getD_replicate_false,
      Bool.false_eq_true, or_false]
    exact ⟨fun h => h.1, fun h => ⟨h, hlt j h⟩⟩
  have hfil : ((List.range n).filter (fun i => res.getD i false)).toFinset =
      L.toFinset := by
    ext j
    simp only [List.mem_toFinset, List.mem_filter, List.mem_range]
    constructor
    · rintro ⟨_, hj⟩
      exact (hiff j).mp hj
    · intro hj
      exact ⟨hlt j hj, (hiff j).mpr hj⟩
  have hnodupF : ((List.range n).filter (fun i => res.getD i false)).Nodup :=
    (List.nodup_range n).filter _
  calc res.count true
      = ((List.range n).filter (fun i => res.getD i false)).length := hcount
    _ = ((List.range n).filter (fun i => res.getD i false)).toFinset.card :=
        (List.toFinset_card_of_nodup hnodupF).symm
    _ = L.toFinset.card := by rw [hfil]
    _ = L.length := List.toFinset_card_of_nodup hL

/-- Adding a shift modulo `D` is injective on indices below `D`. -/
theorem add_shift_mod_injective (D s a b : ℕ) (ha : a < D) (hb : b < D)
    (h : (a + s) % D = (b + s) % D) : a = b := by
  have h1 : a ≡ b [MOD D] := Nat.ModEq.add_right_cancel' s h
  rw [Nat.ModEq, Nat.mod_eq_of_lt ha, Nat.mod_eq_of_lt hb] at h1
  exact h1

/-- An index reading `true` is in range. -/
theorem getD_true_lt_length (p : List Bool) (j : ℕ)
    (h : p.getD j false = true) : j < p.length := by
  by_contra hlen
  rw [List.getD_eq_getElem?_getD,
    List.getElem?_eq_none (Nat.le_of_not_lt hlen)] at h
  exact Bool.false_ne_true h

/-- C8: `applyPhase(pattern, phase)` returns a pattern with exactly the
same number of active bits, whose active-bit indices are those of the
input cyclically shifted by `Math.floor((phase / (2π)) * activeBits)`
modulo `dimensions` (proved for every nonnegative phase, which includes
the claimed range `[0, 2π)`). -/
theorem c8_applyPhase_rotation (e : Encoder) (p : List Bool) (phase : ℚ)
    (j : ℕ) (hp : p.length = e.dimensions) (hphase : 0 ≤ phase) :
    (applyPhase e p phase).count true = p.count true ∧
    ((applyPhase e p phase).getD j false = true ↔
      ∃ i, i < e.dimensions ∧ p.getD i false = true ∧
        j = (i + (⌊phase / (2 * jsPI) * (e.activeBits : ℚ)⌋).toNat) %
          e.dimensions) := by
  by_cases h0 : phase = 0
  · subst h0
    have hs : ((⌊(0 : ℚ) / (2 * jsPI) * (e.activeBits : ℚ)⌋).toNat) = 0 := by
      norm_num
    rw [hs]
    simp only [applyPhase, if_pos rfl]
    refine ⟨rfl, ?_⟩
    constructor
    · intro hj
      have hjlen := getD_true_lt_length p j hj
      rw [hp] at hjlen
      exact ⟨j, hjlen, hj, by rw [Nat.add_zero, Nat.mod_eq_of_lt hjlen]⟩
    · rintro ⟨i, hi, hpi, hji⟩
      rw [Nat.add_zero, Nat.mod_eq_of_lt hi] at hji
      rwa [hji]
  · simp only [applyPhase, if_neg h0]
    set s := (⌊phase / (2 * jsPI) * (e.activeBits : ℚ)⌋).toNat with hs
    set A := (List.range e.dimensions).filter (fun i => p.getD i false)
      with hA
    have hfold : A.foldl
        (fun phased i => phased.set ((i + s) % e.dimensions) true)
        (List.replicate e.dimensions false) =
        (A.map (fun i => (i + s) % e.dimensions)).foldl
          (fun phased i => phased.set i true)
          (List.replicate e.dimensions false) := by
      rw [List.foldl_map]
    rcases Nat.eq_zero_or_pos e.dimensions with hD | hD
    · have hAnil : A = [] := by
        rw [hA, hD]
        rfl
      have hpnil : p = [] := List.eq_nil_of_length_eq_zero (hp.trans hD)
      subst hpnil
      rw [hAnil, hD]
      constructor
      · rfl
      · simp [hD]
    · have hmemA : ∀ i ∈ A, i < e.dimensions := by
        intro i hi
        exact List.mem_range.mp (List.mem_filter.mp hi).1
      have hnodupA : A.Nodup := (List.nodup_range e.dimensions).filter _
      have hnodupL : (A.map (fun i => (i + s) % e.dimensions)).Nodup := by
        apply List.Nodup.map_on _ hnodupA
        intro a ha b hb hab
        exact add_shift_mod_injective e.dimensions s a b (hmemA a ha)
          (hmemA b hb) hab
      have hmemL : ∀ j' ∈ A.map (fun i => (i + s) % e.dimensions),
          j' < e.dimensions := by
        intro j' hj'
        rcases List.mem_map.mp hj' with ⟨i, _, hi⟩
        rw [← hi]
        exact Nat.mod_lt _ hD
      constructor
      · rw [hfold, foldl_set_true_count _ _ hnodupL hmemL,
          List.length_map]
        rw [count_true_eq_filter_range p, hp]
      · rw [hfold, foldl_set_true_getD]
        simp only [List.length_replicate, getD_replicate_false,
          Bool.false_eq_true, or_false]
        constructor
        · rintro ⟨hjL, _⟩
          rcases List.mem_map.mp hjL with ⟨i, hiA, hij⟩
          rcases List.mem_filter.mp hiA with ⟨hir, hip⟩
          exact ⟨i, List.mem_range.mp hir, hip, hij.symm⟩
        · rintro ⟨i, hi, hpi, hji⟩
          refine ⟨List.mem_map.mpr ⟨i, ?_, hji.symm⟩, ?_⟩
          · exact List.mem_filter.mpr ⟨List.mem_range.mpr hi, hpi⟩
          · rw [hji]
            exact Nat.mod_lt _ hD

/-- Witness for C8: dimension 4, 2 active bits, phase `π` (rotation by
`⌊(π/2π) · 2⌋ = 1`). -/
theorem c8_applyPhase_rotation_witness :
    ([true, false, true, false] : List Bool).length =
      (⟨4, 1/2, []⟩ : Encoder).dimensions ∧
    (0 : ℚ) ≤ jsPI ∧
    ((applyPhase ⟨4, 1/2, []⟩ [true, false, true, false] jsPI).count true =
      ([true, false, true, false] : List Bool).count true ∧
     ((applyPhase ⟨4, 1/2, []⟩ [true, false, true, false] jsPI).getD 1
        false = true ↔
      ∃ i, i < (⟨4, 1/2, []⟩ : Encoder).dimensions ∧
        ([true, false, true, false] : List Bool).getD i false = true ∧
        1 = (i + (⌊jsPI / (2 * jsPI) *
          ((⟨4, 1/2, []⟩ : Encoder).activeBits : ℚ)⌋).toNat) %
          (⟨4, 1/2, []⟩ : Encoder).dimensions)) :=
  ⟨by decide, by norm_num [jsPI],
   c8_applyPhase_rotation ⟨4, 1/2, []⟩ [true, false, true, false] jsPI 1
     (by decide) (by norm_num [jsPI])⟩

/-- The function `hashFunction`, and hence the bit index of `encode`'s loop, depends on
the iteration counter only through `i % seeds.length`. -/
theorem hashIndex_mod_seeds (e : Encoder) (c : String) (i : ℕ) :
    hashIndex e c i = hashIndex e c (i % e.seeds.length) := by
  unfold hashIndex hashFunction
  rw [Nat.mod_mod_of_dvd i dvd_rfl]

/-- Counting `true` over a mapped list is the length of the filter. -/
theorem count_true_map (l : List ℕ) (f : ℕ → Bool) :
    ((l.map f).count true) = (l.filter f).length := by
  induction l with
  | nil => rfl
  | cons a t ih =>
    simp only [List.map_cons, List.filter_cons]
    cases h : f a with
    | true => simp [List.count_cons, ih]
    | false => simp [List.count_cons, ih]

/-- Any pattern produced by `encode` has at most `seeds.length` distinct
active bits: iterations `i` and `i + seeds.length` write the same index. -/
theorem encodePattern_count_le (e : Encoder) (c : String)
    (h : 0 < e.seeds.length) :
    (encodePattern e c).count true ≤ e.seeds.length := by
  have hEnc : encodePattern e c =
      ((List.range e.activeBits).map (hashIndex e c)).foldl
        (fun pat i => pat.set i true)
        (List.replicate e.dimensions false) := by
    unfold encodePattern
    rw [List.foldl_map]
  set L := (List.range e.activeBits).map (hashIndex e c) with hL
  set M := (List.range e.seeds.length).map (hashIndex e c) with hM
  have hLM : ∀ x ∈ L, x ∈ M := by
    intro x hx
    rcases List.mem_map.mp hx with ⟨i, _, hxi⟩
    refine List.mem_map.mpr ⟨i % e.seeds.length,
      List.mem_range.mpr (Nat.mod_lt i h), ?_⟩
    rw [← hashIndex_mod_seeds, hxi]
  have hlen : (encodePattern e c).length = e.dimensions := by
    rw [hEnc, foldl_set_true_length, List.length_replicate]
  rw [count_true_eq_filter_range, hlen]
  set F := (List.range e.dimensions).filter
    (fun i => (encodePattern e c).getD i false) with hF
  have hFL : ∀ x ∈ F, x ∈ L := by
    intro x hx
    rcases List.mem_filter.mp hx with ⟨_, hget⟩
    have := (foldl_set_true_getD L (List.replicate e.dimensions false)
      x).mp (by rwa [← hEnc])
    rcases this with ⟨hmem, _⟩ | hbase
    · exact hmem
    · rw [getD_replicate_false] at hbase
      exact absurd hbase Bool.false_ne_true
  have hFnodup : F.Nodup := (List.nodup_range e.dimensions).filter _
  calc F.length = F.toFinset.card := (List.toFinset_card_of_nodup hFnodup).symm
    _ ≤ M.toFinset.card := by
        apply Finset.card_le_card
        intro x hx
        exact List.mem_toFinset.mpr (hLM x (hFL x (List.mem_toFinset.mp hx)))
    _ ≤ M.length := M.toFinset_card_le
    _ = e.seeds.length := by rw [hM, List.length_map, List.length_range]

/-- C1 (code bug): with the test suite's own encoder configuration
(`new SparseHyperpositionEncoder(10000, 0.02)`: 200 active bits but only
100 random seeds), every pattern `encode` returns has at most 100 distinct
active bits, so the self-interference strength is at most 1/2.  The
repository's test `expect(encoder.findInterference(p, p).strength)
.toBe(1.0)` can therefore never pass, whatever the seeds are. -/
theorem c1_self_interference_at_most_half (seeds : List ℤ)
    (hseeds : seeds.length = 100) :
    (findInterference ⟨10000, 1/50, seeds⟩
      (encodePattern ⟨10000, 1/50, seeds⟩ "identical")
      (encodePattern ⟨10000, 1/50, seeds⟩ "identical")).2 ≤ 1/2 := by
  set e : Encoder := ⟨10000, 1/50, seeds⟩ with he
  set p := encodePattern e "identical" with hp
  have hActive : e.activeBits = 200 := by
    show ((⌊((10000 : ℕ) : ℚ) * (1/50)⌋).toNat) = 200
    have hfl : (⌊((10000 : ℕ) : ℚ) * (1/50)⌋ : ℤ) = 200 := by norm_num
    rw [hfl]
    rfl
  have hplen : p.length = e.dimensions := by
    have hEnc2 : p = ((List.range e.activeBits).map
        (hashIndex e "identical")).foldl (fun pat i => pat.set i true)
        (List.replicate e.dimensions false) := by
      rw [hp]
      unfold encodePattern
      rw [List.foldl_map]
    rw [hEnc2, foldl_set_true_length, List.length_replicate]
  have hcount : p.count true ≤ 100 := by
    have := encodePattern_count_le e "identical"
      (by rw [he]; simpa using hseeds ▸ Nat.succ_pos 99)
    rwa [show e.seeds.length = 100 from hseeds] at this
  unfold findInterference
  simp only [Bool.and_self]
  rw [count_true_map, hActive]
  have hflen : ((List.range e.dimensions).filter
      (fun i => p.getD i false)).length ≤ 100 := by
    rw [← hplen, ← count_true_eq_filter_range]
    exact hcount
  rw [div_le_iff₀ (by norm_num : (0 : ℚ) < ((200 : ℕ) : ℚ))]
  have hcast : (((List.range e.dimensions).filter
      (fun i => p.getD i false)).length : ℚ) ≤ 100 := by
    exact_mod_cast hflen
  exact le_trans hcast (by norm_num)

/-- Witness for C1 at a concrete seed list. -/
theorem c1_self_interference_at_most_half_witness :
    (List.replicate 100 (0 : ℤ)).length = 100 ∧
    (findInterference ⟨10000, 1/50, List.replicate 100 (0 : ℤ)⟩
      (encodePattern ⟨10000, 1/50, List.replicate 100 (0 : ℤ)⟩ "identical")
      (encodePattern ⟨10000, 1/50, List.replicate 100 (0 : ℤ)⟩
        "identical")).2 ≤ 1/2 :=
  ⟨by decide,
   c1_self_interference_at_most_half (List.replicate 100 0) (by decide)⟩

end Sparse

namespace SparseRef

open Sparse

/-- A successful memory lookup comes from an entry of the memory list. -/
theorem lookupConcept_mem (m : List (String × ℕ)) (c : String) (r : ℕ)
    (h : lookupConcept m c = some r) : (c, r) ∈ m := by
  induction m with
  | nil => exact absurd h (by simp [lookupConcept])
  | cons p rest ih =>
    unfold lookupConcept at h
    by_cases hk : p.1 = c
    · rw [if_pos hk] at h
      injection h with h2
      refine List.mem_cons.mpr (Or.inl ?_)
      rw [← hk, ← h2]
    · rw [if_neg hk] at h
      exact List.mem_cons.mpr (Or.inr (ih h))

/-- After a miss-and-insert, looking the concept up finds the new
entry. -/
theorem lookupConcept_append_self (m : List (String × ℕ)) (c : String)
    (r : ℕ) (h : lookupConcept m c = none) :
    lookupConcept (m ++ [(c, r)]) c = some r := by
  induction m with
  | nil => simp [lookupConcept]
  | cons p rest ih =>
    unfold lookupConcept at h ⊢
    by_cases hk : p.1 = c
    · rw [if_pos hk] at h
      exact absurd h (by simp)
    · rw [if_neg hk] at h
      simp only [List.cons_append, if_neg hk]
      exact ih h

/-- A hit in `conceptMemory` returns the stored reference unchanged. -/
theorem encodeRef_of_lookup (e : Encoder) (σ : EncState) (c : String)
    (r : ℕ) (h : lookupConcept σ.memory c = some r) :
    encodeRef e σ c = (r, σ) := by
  unfold encodeRef
  rw [h]

/-- C10: `encode` returns the very object stored in `conceptMemory` on
every repeated call; `superpose`, `findInterference` and
`weightedSuperpose` return freshly allocated arrays and leave every
existing object and the memory untouched; `applyPhase` with phase 0
returns the input object itself with no allocation; and a caller that
writes through a pattern reference returned by `encode` mutates the
encoder's stored memory — the next `encode` of the same concept returns
the mutated object. -/
theorem c10_object_identity (e : Encoder) (σ : EncState) (c : String)
    (rs : List ℕ) (rws : List (ℕ × ℚ)) (r1 r2 : ℕ) (v : List Bool)
    (hwf : wf σ) :
    (encodeRef e (encodeRef e σ c).2 c).1 = (encodeRef e σ c).1 ∧
    (encodeRef e (encodeRef e σ c).2 c).2 = (encodeRef e σ c).2 ∧
    superposeRef e σ rs =
      (σ.store.length,
       ⟨σ.store ++ [superpose e (rs.map (readRef σ))], σ.memory⟩) ∧
    findInterferenceRef e σ r1 r2 =
      (σ.store.length,
       ⟨σ.store ++ [(findInterference e (readRef σ r1) (readRef σ r2)).1],
        σ.memory⟩) ∧
    weightedSuperposeRef e σ rws =
      (σ.store.length,
       ⟨σ.store ++
          [weightedSuperpose e (rws.map (fun rw => (readRef σ rw.1, rw.2)))],
        σ.memory⟩) ∧
    applyPhaseRef e σ r1 0 = (r1, σ) ∧
    (encodeRef e (writeRef (encodeRef e σ c).2 (encodeRef e σ c).1 v) c).1 =
      (encodeRef e σ c).1 ∧
    (encodeRef e (writeRef (encodeRef e σ c).2 (encodeRef e σ c).1 v) c).2 =
      writeRef (encodeRef e σ c).2 (encodeRef e σ c).1 v ∧
    readRef (writeRef (encodeRef e σ c).2 (encodeRef e σ c).1 v)
      (encodeRef e σ c).1 = v := by
  have href_lt : (encodeRef e σ c).1 < (encodeRef e σ c).2.store.length := by
    unfold encodeRef
    cases hl : lookupConcept σ.memory c with
    | some rr => exact hwf (c, rr) (lookupConcept_mem σ.memory c rr hl)
    | none => simp
  have hlookup2 : lookupConcept (encodeRef e σ c).2.memory c =
      some (encodeRef e σ c).1 := by
    unfold encodeRef
    cases hl : lookupConcept σ.memory c with
    | some rr => exact hl
    | none => exact lookupConcept_append_self σ.memory c σ.store.length hl
  refine ⟨?_, ?_, rfl, rfl, rfl, rfl, ?_, ?_, ?_⟩
  · rw [encodeRef_of_lookup e (encodeRef e σ c).2 c (encodeRef e σ c).1
      hlookup2]
  · rw [encodeRef_of_lookup e (encodeRef e σ c).2 c (encodeRef e σ c).1
      hlookup2]
  · rw [encodeRef_of_lookup e (writeRef (encodeRef e σ c).2
      (encodeRef e σ c).1 v) c (encodeRef e σ c).1 hlookup2]
  · rw [encodeRef_of_lookup e (writeRef (encodeRef e σ c).2
      (encodeRef e σ c).1 v) c (encodeRef e σ c).1 hlookup2]
  · unfold readRef writeRef
    rw [List.getD_eq_getElem?_getD, List.getElem?_set]
    simp [href_lt]

/-- Witness for C10 on an empty heap. -/
theorem c10_object_identity_witness :
    wf ⟨[], []⟩ ∧
    ((encodeRef ⟨4, 1/2, [0]⟩ (encodeRef ⟨4, 1/2, [0]⟩ ⟨[], []⟩ "a").2
        "a").1 = (encodeRef ⟨4, 1/2, [0]⟩ ⟨[], []⟩ "a").1 ∧
     (encodeRef ⟨4, 1/2, [0]⟩ (encodeRef ⟨4, 1/2, [0]⟩ ⟨[], []⟩ "a").2
        "a").2 = (encodeRef ⟨4, 1/2, [0]⟩ ⟨[], []⟩ "a").2 ∧
     superposeRef ⟨4, 1/2, [0]⟩ ⟨[], []⟩ [0] =
      (([] : List (List Bool)).length,
       ⟨[] ++ [superpose ⟨4, 1/2, [0]⟩
          ([0].map (readRef ⟨[], []⟩))], []⟩) ∧
     findInterferenceRef ⟨4, 1/2, [0]⟩ ⟨[], []⟩ 0 0 =
      (([] : List (List Bool)).length,
       ⟨[] ++ [(findInterference ⟨4, 1/2, [0]⟩ (readRef ⟨[], []⟩ 0)
          (readRef ⟨[], []⟩ 0)).1], []⟩) ∧
     weightedSuperposeRef ⟨4, 1/2, [0]⟩ ⟨[], []⟩ [(0, 1)] =
      (([] : List (List Bool)).length,
       ⟨[] ++ [weightedSuperpose ⟨4, 1/2, [0]⟩
          ([(0, 1)].map (fun rw => (readRef ⟨[], []⟩ rw.1, rw.2)))], []⟩) ∧
     applyPhaseRef ⟨4, 1/2, [0]⟩ ⟨[], []⟩ 0 0 = (0, ⟨[], []⟩) ∧
     (encodeRef ⟨4, 1/2, [0]⟩ (writeRef (encodeRef ⟨4, 1/2, [0]⟩ ⟨[], []⟩
          "a").2 (encodeRef ⟨4, 1/2, [0]⟩ ⟨[], []⟩ "a").1 [true]) "a").1 =
      (encodeRef ⟨4, 1/2, [0]⟩ ⟨[], []⟩ "a").1 ∧
     (encodeRef ⟨4, 1/2, [0]⟩ (writeRef (encodeRef ⟨4, 1/2, [0]⟩ ⟨[], []⟩
          "a").2 (encodeRef ⟨4, 1/2, [0]⟩ ⟨[], []⟩ "a").1 [true]) "a").2 =
      writeRef (encodeRef ⟨4, 1/2, [0]⟩ ⟨[], []⟩ "a").2
        (encodeRef ⟨4, 1/2, [0]⟩ ⟨[], []⟩ "a").1 [true] ∧
     readRef (writeRef (encodeRef ⟨4, 1/2, [0]⟩ ⟨[], []⟩ "a").2
        (encodeRef ⟨4, 1/2, [0]⟩ ⟨[], []⟩ "a").1 [true])
       (encodeRef ⟨4, 1/2, [0]⟩ ⟨[], []⟩ "a").1 = [true]) :=
  ⟨by intro p hp; exact absurd hp (List.not_mem_nil p),
   c10_object_identity ⟨4, 1/2, [0]⟩ ⟨[], []⟩ "a" [0] [(0, 1)] 0 0 [true]
     (by intro p hp; exact absurd hp (List.not_mem_nil p))⟩

end SparseRef

namespace BiHam

/-- C6 counterexample: a token state with `|jerk|` exactly 1.0 is
classified STABLE by the code, although `|jerk|` is not below the jerk
threshold, so the claimed "if and only if" with strict thresholds fails. -/
theorem c6_counterexample :
    isStable ⟨1, 1, 1, 0, 3/10⟩ = true ∧
    ¬(|(⟨1, 1, 1, 0, 3/10⟩ : BHState).jerk| < 1) := by
  with_unfolding_all decide

/-- C6 (amended): divergence is `|H1 - H2|`, and the token is STABLE iff
that divergence is below the divergence threshold and `|jerk|` and
`|snap|` do not exceed their fixed thresholds 1.0 and 2.0 (the code uses
strict `>` for "high", so the boundary values 1.0 and 2.0 still count as
stable). -/
theorem c6_isStable_iff (t : BHState) :
    (isStable t = true ↔
      (|t.H1_coherence - t.H2_structure| < t.divergenceThreshold ∧
       |t.jerk| ≤ 1 ∧ |t.snap| ≤ 2)) ∧
    (checkDivergence t).map (fun r => r.divergence) =
      (if t.divergenceThreshold < |t.H1_coherence - t.H2_structure| then
        some |t.H1_coherence - t.H2_structure| else none) := by
  constructor
  · unfold isStable
    simp only [Bool.and_eq_true, Bool.not_eq_true', decide_eq_true_eq,
      decide_eq_false_iff_not, not_lt]
    tauto
  · unfold checkDivergence
    by_cases h : t.divergenceThreshold < |t.H1_coherence - t.H2_structure| <;>
      simp [h]

end BiHam

namespace Emo

/-- The dominant-emotion scan keeps either the initial accumulator (when
no weight beats it) or the first occurrence of the maximal weight. -/
theorem collapse_fold_spec {K : Type} [LinearOrderedField K]
    (l : List (Option String × EmoComp K)) (m0 : K) (d0 : Option String) :
    (l.foldl (fun acc kc =>
        if acc.1 < kc.2.weight then (kc.2.weight, kc.1) else acc)
      (m0, d0) = (m0, d0) ∧ ∀ kc ∈ l, kc.2.weight ≤ m0) ∨
    (∃ c, ((l.foldl (fun acc kc =>
        if acc.1 < kc.2.weight then (kc.2.weight, kc.1) else acc)
      (m0, d0)).2, c) ∈ l ∧
      c.weight = (l.foldl (fun acc kc =>
        if acc.1 < kc.2.weight then (kc.2.weight, kc.1) else acc)
        (m0, d0)).1 ∧
      m0 < (l.foldl (fun acc kc =>
        if acc.1 < kc.2.weight then (kc.2.weight, kc.1) else acc)
        (m0, d0)).1 ∧
      ∀ kc ∈ l, kc.2.weight ≤ (l.foldl (fun acc kc =>
        if acc.1 < kc.2.weight then (kc.2.weight, kc.1) else acc)
        (m0, d0)).1) := by
  induction l generalizing m0 d0 with
  | nil => exact Or.inl ⟨rfl, by simp⟩
  | cons kc t ih =>
    simp only [List.foldl_cons]
    by_cases h : m0 < kc.2.weight
    · rw [if_pos h]
      rcases ih kc.2.weight kc.1 with ⟨heq, hall⟩ | ⟨c, hmem, hw, hlt, hall⟩
      · rw [heq]
        refine Or.inr ⟨kc.2, ?_, rfl, h, ?_⟩
        · exact List.mem_cons.mpr (Or.inl (Prod.mk.eta).symm)
        · intro kc2 hkc2
          rcases List.mem_cons.mp hkc2 with h2 | h2
          · rw [h2]
          · exact hall kc2 h2
      · refine Or.inr ⟨c, List.mem_cons.mpr (Or.inr hmem), hw,
          lt_trans h hlt, ?_⟩
        intro kc2 hkc2
        rcases List.mem_cons.mp hkc2 with h2 | h2
        · rw [h2]; exact le_of_lt hlt
        · exact hall kc2 h2
    · rw [if_neg h]
      rcases ih m0 d0 with ⟨heq, hall⟩ | ⟨c, hmem, hw, hlt, hall⟩
      · refine Or.inl ⟨heq, ?_⟩
        intro kc2 hkc2
        rcases List.mem_cons.mp hkc2 with h2 | h2
        · rw [h2]; exact le_of_not_lt h
        · exact hall kc2 h2
      · refine Or.inr ⟨c, List.mem_cons.mpr (Or.inr hmem), hw, hlt, ?_⟩
        intro kc2 hkc2
        rcases List.mem_cons.mp hkc2 with h2 | h2
        · rw [h2]; exact le_trans (le_of_not_lt h) (le_of_lt hlt)
        · exact hall kc2 h2

/-- C9 counterexample: a non-collapsed token with one emotional component
of weight 0 ("joy").  Because the scan uses strict `>` against the
initial `maxWeight = 0`, the dominant emotion remains `null`, and the
collapsed map holds a single entry keyed `null` — not an emotion of
maximal weight — and `null` is returned. -/
theorem c9_counterexample :
    (collapseEmotional (⟨⟨0, 0, 0, 0, 0, 0, 0, 0⟩,
        [(some "joy", ⟨0, 0⟩)], false, 0⟩ : EmoState ℚ)).1.components =
      [(none, ⟨1, 0⟩)] ∧
    (collapseEmotional (⟨⟨0, 0, 0, 0, 0, 0, 0, 0⟩,
        [(some "joy", ⟨0, 0⟩)], false, 0⟩ : EmoState ℚ)).2 =
      some none := by
  with_unfolding_all decide

/-- C9 (amended): on a non-collapsed token whose components are keyed by
emotions and at least one of which has positive weight,
`collapseEmotional` leaves exactly one entry — the first emotion of
maximal weight — with weight 1 and phase 0, sets `dimensions.emotional`
to 1 and the collapsed flag, returns that emotion, and every further call
returns immediately (`undefined`) without changing the state.  (With all
weights ≤ 0 the surviving key is `null` instead, see the
counterexample.) -/
theorem c9_collapse_dominant (s : EmoState ℚ)
    (hc : s.collapsed = false)
    (hpos : ∃ kc ∈ s.components, 0 < kc.2.weight)
    (hkeys : ∀ kc ∈ s.components, ∃ name, kc.1 = some name) :
    ∃ k, (collapseEmotional s).2 = some k ∧
      (collapseEmotional s).1.components = [(k, ⟨1, 0⟩)] ∧
      (∃ c, (k, c) ∈ s.components ∧
        ∀ kc ∈ s.components, kc.2.weight ≤ c.weight) ∧
      (∃ name, k = some name) ∧
      (collapseEmotional s).1.collapsed = true ∧
      (collapseEmotional s).1.dims.emotional = 1 ∧
      collapseEmotional (collapseEmotional s).1 =
        ((collapseEmotional s).1, none) := by
  rcases collapse_fold_spec s.components (0 : ℚ) none with
    ⟨_, hall⟩ | ⟨c, hmem, hw, _, hall⟩
  · rcases hpos with ⟨kc, hkc, hkcpos⟩
    exact absurd (hall kc hkc) (not_le.mpr hkcpos)
  · set r := s.components.foldl
      (fun acc kc =>
        if acc.1 < kc.2.weight then (kc.2.weight, kc.1) else acc)
      ((0 : ℚ), (none : Option String)) with hr
    refine ⟨r.2, ?_, ?_, ⟨c, hmem, ?_⟩, ?_, ?_, ?_, ?_⟩
    · simp [collapseEmotional, hc, hr]
    · simp [collapseEmotional, hc, hr]
    · intro kc hkc
      rw [hw]
      exact hall kc hkc
    · rcases hkeys (r.2, c) hmem with ⟨name, hname⟩
      exact ⟨name, hname⟩
    · simp [collapseEmotional, hc]
    · simp [collapseEmotional, hc]
    · simp [collapseEmotional, hc]

/-- Witness for C9 on a token holding joy (weight 0.5) and grief
(weight 0.25). -/
theorem c9_collapse_dominant_witness :
    ((⟨⟨0, 0, 0, 0, 0, 0, 0, 0⟩,
        [(some "joy", ⟨1/2, 0⟩), (some "grief", ⟨1/4, 3⟩)],
        false, 0⟩ : EmoState ℚ).collapsed = false) ∧
    (∃ k, (collapseEmotional (⟨⟨0, 0, 0, 0, 0, 0, 0, 0⟩,
        [(some "joy", ⟨1/2, 0⟩), (some "grief", ⟨1/4, 3⟩)],
        false, 0⟩ : EmoState ℚ)).2 = some k ∧
      (collapseEmotional (⟨⟨0, 0, 0, 0, 0, 0, 0, 0⟩,
        [(some "joy", ⟨1/2, 0⟩), (some "grief", ⟨1/4, 3⟩)],
        false, 0⟩ : EmoState ℚ)).1.components = [(k, ⟨1, 0⟩)] ∧
      (∃ c, (k, c) ∈ [(some "joy", (⟨1/2, 0⟩ : EmoComp ℚ)),
          (some "grief", ⟨1/4, 3⟩)] ∧
        ∀ kc ∈ [(some "joy", (⟨1/2, 0⟩ : EmoComp ℚ)),
          (some "grief", ⟨1/4, 3⟩)], kc.2.weight ≤ c.weight) ∧
      (∃ name, k = some name) ∧
      (collapseEmotional (⟨⟨0, 0, 0, 0, 0, 0, 0, 0⟩,
        [(some "joy", ⟨1/2, 0⟩), (some "grief", ⟨1/4, 3⟩)],
        false, 0⟩ : EmoState ℚ)).1.collapsed = true ∧
      (collapseEmotional (⟨⟨0, 0, 0, 0, 0, 0, 0, 0⟩,
        [(some "joy", ⟨1/2, 0⟩), (some "grief", ⟨1/4, 3⟩)],
        false, 0⟩ : EmoState ℚ)).1.dims.emotional = 1 ∧
      collapseEmotional (collapseEmotional (⟨⟨0, 0, 0, 0, 0, 0, 0, 0⟩,
        [(some "joy", ⟨1/2, 0⟩), (some "grief", ⟨1/4, 3⟩)],
        false, 0⟩ : EmoState ℚ)).1 =
        ((collapseEmotional (⟨⟨0, 0, 0, 0, 0, 0, 0, 0⟩,
          [(some "joy", ⟨1/2, 0⟩), (some "grief", ⟨1/4, 3⟩)],
          false, 0⟩ : EmoState ℚ)).1, none)) :=
  ⟨rfl,
   c9_collapse_dominant _ rfl
     ⟨(some "joy", ⟨1/2, 0⟩), List.mem_cons_self _ _,
       by with_unfolding_all decide⟩
     (by
       intro kc hkc
       rcases List.mem_cons.mp hkc with h | h
       · exact ⟨"joy", by rw [h]⟩
       · rcases List.mem_cons.mp h with h2 | h2
         · exact ⟨"grief", by rw [h2]⟩
         · exact absurd h2 (List.not_mem_nil kc))⟩

/-- A pairwise accumulating fold is the pair of mapped sums. -/
theorem foldl_pair_sum {α : Type} (l : List α) (f g : α → ℝ) (a b : ℝ) :
    l.foldl (fun acc kc => (acc.1 + f kc, acc.2 + g kc)) (a, b) =
      (a + (l.map f).sum, b + (l.map g).sum) := by
  induction l generalizing a b with
  | nil => simp
  | cons x t ih =>
    simp only [List.foldl_cons, List.map_cons, List.sum_cons]
    rw [ih]
    ring_nf

/-- What `recalculateSuperposition` stores, expressed through the
closed-form magnitude: the coherence becomes `magnitude/numComponents`
(0 under destructive interference) and `dimensions.emotional` becomes the
magnitude. -/
theorem recalc_energy_spec (s : EmoState ℝ) :
    calculateCoherenceEnergy (recalculateSuperposition s) =
      Real.sqrt (sumSqDims (recalculateSuperposition s).dims +
        (if 1 < s.components.length ∧
            affectiveMagnitude s.components < 3/10 then 0
         else affectiveMagnitude s.components /
           (s.components.length : ℝ))) ∧
    (recalculateSuperposition s).dims.emotional =
      affectiveMagnitude s.components := by
  have htotal : s.components.foldl
      (fun acc kc => (acc.1 + kc.2.weight * Real.cos kc.2.phase,
                      acc.2 + kc.2.weight * Real.sin kc.2.phase))
      ((0 : ℝ), (0 : ℝ)) =
      ((s.components.map (fun kc => kc.2.weight * Real.cos kc.2.phase)).sum,
       (s.components.map (fun kc => kc.2.weight * Real.sin kc.2.phase)).sum)
      := by
    rw [foldl_pair_sum]
    simp
  constructor
  · unfold calculateCoherenceEnergy recalculateSuperposition
    rw [htotal]
    rfl
  · unfold recalculateSuperposition affectiveMagnitude
    rw [htotal]

/-- C7 (amended): after `recalculateSuperposition`, the recomputed H1 is
`sqrt(Σ feature² + c)` where `c` is the *stored* emotional coherence,
namely `magnitude / numComponents` — the phase-weighted vector-sum
magnitude divided by the number of components — or 0 under destructive
interference (`numComponents > 1` and magnitude < 0.3); the magnitude
itself is stored in `dimensions.emotional`, not in the coherence. -/
theorem c7_coherence_energy (s : EmoState ℝ) :
    calculateCoherenceEnergy (recalculateSuperposition s) =
      Real.sqrt (sumSqDims (recalculateSuperposition s).dims +
        (if 1 < s.components.length ∧
            affectiveMagnitude s.components < 3/10 then 0
         else affectiveMagnitude s.components /
           (s.components.length : ℝ))) ∧
    (recalculateSuperposition s).dims.emotional =
      affectiveMagnitude s.components :=
  recalc_energy_spec s

/-- On the C7 token the vector-sum magnitude is 2. -/
theorem c7token_magnitude : affectiveMagnitude c7token.components = 2 := by
  unfold affectiveMagnitude c7token
  simp only [List.map_cons, List.map_nil, List.sum_cons, List.sum_nil]
  rw [Real.cos_zero, Real.sin_zero]
  norm_num
  rw [show (4 : ℝ) = 2 ^ 2 by norm_num,
    Real.sqrt_sq (by norm_num : (0 : ℝ) ≤ 2)]

/-- C7 counterexample: on a token with two components of weight 1 and
phase 0 the vector-sum magnitude is 2 but the stored coherence is
`2 / 2 = 1`, so the recomputed H1 is `sqrt(Σ d² + 1) = sqrt 5`, not the
claimed `sqrt(Σ d² + magnitude) = sqrt 6`. -/
theorem c7_counterexample :
    calculateCoherenceEnergy (recalculateSuperposition c7token) ≠
    claimedCoherenceEnergy (recalculateSuperposition c7token) := by
  have hspec := recalc_energy_spec c7token
  have hdims : sumSqDims (recalculateSuperposition c7token).dims =
      affectiveMagnitude c7token.components ^ 2 := by
    have he := hspec.2
    unfold sumSqDims
    rw [show (recalculateSuperposition c7token).dims.semantic = 0 from rfl,
      show (recalculateSuperposition c7token).dims.temporal = 0 from rfl,
      show (recalculateSuperposition c7token).dims.causal = 0 from rfl,
      show (recalculateSuperposition c7token).dims.relational = 0 from rfl,
      show (recalculateSuperposition c7token).dims.probability = 0 from rfl,
      show (recalculateSuperposition c7token).dims.energy = 0 from rfl,
      show (recalculateSuperposition c7token).dims.coherence = 0 from rfl,
      he]
    ring
  have hcomps : (recalculateSuperposition c7token).components =
      c7token.components := rfl
  have hlen : c7token.components.length = 2 := rfl
  have hL : calculateCoherenceEnergy (recalculateSuperposition c7token) =
      Real.sqrt 5 := by
    rw [hspec.1, hdims, c7token_magnitude, hlen]
    norm_num
  have hR : claimedCoherenceEnergy (recalculateSuperposition c7token) =
      Real.sqrt 6 := by
    unfold claimedCoherenceEnergy
    rw [hdims, hcomps, c7token_magnitude]
    norm_num
  rw [hL, hR]
  intro h
  have := (Real.sqrt_inj (by norm_num) (by norm_num)).mp h
  norm_num at this

end Emo

namespace Skip

/-- Membership in a stable insertion. -/
theorem mem_insertDescBy {α : Type} (key : α → ℚ) (x a : α)
    (l : List α) : a ∈ insertDescBy key x l ↔ a = x ∨ a ∈ l := by
  induction l with
  | nil => simp [insertDescBy]
  | cons y ys ih =>
    unfold insertDescBy
    by_cases h : key x ≤ key y
    · rw [if_pos h]
      simp only [List.mem_cons, ih]
      tauto
    · rw [if_neg h]
      simp only [List.mem_cons]

/-- Sorting does not change membership. -/
theorem mem_sortDescBy {α : Type} (key : α → ℚ) (l : List α) (a : α) :
    a ∈ sortDescBy key l ↔ a ∈ l := by
  unfold sortDescBy
  suffices h : ∀ acc : List α,
      (a ∈ l.foldl (fun acc x => insertDescBy key x acc) acc ↔
        a ∈ acc ∨ a ∈ l) by
    rw [h []]
    simp
  induction l with
  | nil => intro acc; simp
  | cons y ys ih =>
    intro acc
    simp only [List.foldl_cons]
    rw [ih (insertDescBy key y acc)]
    rw [mem_insertDescBy]
    simp only [List.mem_cons]
    tauto

/-- Every trace kept by the pruning fold comes from the accumulator or
from the input list. -/
theorem prune_fold_sub (l : List Trace) :
    ∀ acc : List Trace × List String,
      ∀ t ∈ (l.foldl (fun acc trace =>
        if acc.2.contains (traceSignature trace) then acc
        else if trace.path.length < 3 then acc
        else (acc.1 ++ [trace], acc.2 ++ [traceSignature trace])) acc).1,
      t ∈ acc.1 ∨ t ∈ l := by
  induction l with
  | nil => intro acc t ht; exact Or.inl ht
  | cons tr rest ih =>
    intro acc t ht
    simp only [List.foldl_cons] at ht
    rcases ih _ t ht with h | h
    · by_cases h1 : acc.2.contains (traceSignature tr)
      · rw [if_pos h1] at h
        exact Or.inl h
      · rw [if_neg h1] at h
        by_cases h2 : tr.path.length < 3
        · rw [if_pos h2] at h
          exact Or.inl h
        · rw [if_neg h2] at h
          rcases List.mem_append.mp h with h3 | h3
          · exact Or.inl h3
          · rw [List.mem_singleton.mp h3]
            exact Or.inr (List.mem_cons_self _ _)
    · exact Or.inr (List.mem_cons.mpr (Or.inr h))

/-- Pruning only ever returns input traces. -/
theorem pruneTraces_subset (traces : List Trace) (t : Trace)
    (h : t ∈ pruneTraces traces) : t ∈ traces := by
  unfold pruneTraces at h
  rcases prune_fold_sub traces ([], []) t h with h2 | h2
  · exact absurd h2 (List.not_mem_nil t)
  · exact h2

/-- The payload of an enumerated entry is a member of the list. -/
theorem snd_mem_of_mem_enumFrom {α : Type} :
    ∀ (l : List α) (k : ℕ) (p : ℕ × α), p ∈ l.enumFrom k → p.2 ∈ l := by
  intro l
  induction l with
  | nil =>
    intro k p hp
    exact absurd hp (by simp [List.enumFrom])
  | cons a t ih =>
    intro k p hp
    rw [List.enumFrom] at hp
    rcases List.mem_cons.mp hp with h | h
    · rw [h]
      exact List.mem_cons_self _ _
    · exact List.mem_cons.mpr (Or.inr (ih (k + 1) p h))

/-- One-step unfolding of the recursion at positive fuel (definitional). -/
theorem traceFromTokenAux_succ (eng : Engine) (fuel : ℕ)
    (currentToken : HToken) (path : List HToken) (remainingEnergy : ℚ) :
    traceFromTokenAux eng (fuel + 1) currentToken path remainingEnergy =
      if eng.maxTraceLength ≤ path.length ∨ remainingEnergy < 1/10 then
        [⟨path ++ [currentToken], eng.energy - remainingEnergy, true, 0⟩]
      else if (findSkipCandidates eng currentToken
          (path ++ [currentToken])).isEmpty then
        [⟨path ++ [currentToken], eng.energy - remainingEnergy, false, 0⟩]
      else
        (((findSkipCandidates eng currentToken
            (path ++ [currentToken])).take eng.branchingFactor).map
          (fun candidate =>
            traceFromTokenAux eng fuel candidate.1 (path ++ [currentToken])
              (remainingEnergy -
                calculateEnergyCost currentToken candidate.1))).flatten :=
  rfl

/-- Appending a fresh element preserves duplicate-freedom. -/
theorem nodup_append_singleton {α : Type} (l : List α) (a : α)
    (hnd : l.Nodup) (hni : a ∉ l) : (l ++ [a]).Nodup := by
  rw [← List.concat_eq_append]
  exact List.Nodup.concat hni hnd

/-- A candidate produced by `findSkipCandidates` is never already in the
path. -/
theorem candidate_not_in_path (eng : Engine) (fromToken : HToken)
    (currentPath : List HToken) (c : HToken × ℚ)
    (hc : c ∈ findSkipCandidates eng fromToken currentPath) :
    c.1 ∉ currentPath := by
  unfold findSkipCandidates at hc
  rw [mem_sortDescBy] at hc
  rcases List.mem_filterMap.mp hc with ⟨toToken, _, hbody⟩
  by_cases hmem : toToken ∈ currentPath
  · rw [if_pos hmem] at hbody
    exact absurd hbody (by simp)
  · rw [if_neg hmem] at hbody
    by_cases hsc : eng.threshold < skipScore fromToken toToken
    · rw [if_pos hsc] at hbody
      injection hbody with hbody2
      rw [← hbody2]
      exact hmem
    · rw [if_neg hsc] at hbody
      exact absurd hbody (by simp)

/-- Invariant of the trace recursion: starting from a duplicate-free path
of length at most `maxTraceLength` that does not contain the current
token, every produced trace is non-empty, duplicate-free, and at most
`maxTraceLength + 1` long. -/
theorem traceFromTokenAux_spec (eng : Engine) :
    ∀ (fuel : ℕ) (currentToken : HToken) (path : List HToken)
      (remainingEnergy : ℚ),
      path.Nodup → currentToken ∉ path →
      path.length ≤ eng.maxTraceLength →
      ∀ tr ∈ traceFromTokenAux eng fuel currentToken path remainingEnergy,
        tr.path.length ≤ eng.maxTraceLength + 1 ∧ tr.path.Nodup ∧
          tr.path ≠ [] := by
  intro fuel
  induction fuel with
  | zero =>
    intro current path remE hnd hni hle tr htr
    rw [List.mem_singleton.mp htr]
    refine ⟨?_, nodup_append_singleton path current hnd hni, by simp⟩
    simp only [List.length_append, List.length_singleton]
    omega
  | succ fuel ih =>
    intro current path remE hnd hni hle tr htr
    rw [traceFromTokenAux_succ] at htr
    by_cases hterm : eng.maxTraceLength ≤ path.length ∨ remE < 1/10
    · rw [if_pos hterm] at htr
      rw [List.mem_singleton.mp htr]
      refine ⟨?_, nodup_append_singleton path current hnd hni, by simp⟩
      simp only [List.length_append, List.length_singleton]
      omega
    · rw [if_neg hterm] at htr
      have hlt : path.length < eng.maxTraceLength := by
        push_neg at hterm
        exact lt_of_le_of_ne (by omega) (by
          intro he
          exact absurd (le_of_eq he.symm) (not_le.mpr (by omega)))
      by_cases hemp : (findSkipCandidates eng current
          (path ++ [current])).isEmpty
      · rw [if_pos hemp] at htr
        rw [List.mem_singleton.mp htr]
        refine ⟨?_, nodup_append_singleton path current hnd hni, by simp⟩
        simp only [List.length_append, List.length_singleton]
        omega
      · rw [if_neg hemp] at htr
        rcases List.mem_flatten.mp htr with ⟨lt, hlt2, htr2⟩
        rcases List.mem_map.mp hlt2 with ⟨cand, hcand, rfl⟩
        have hcand2 := List.mem_of_mem_take hcand
        have hnotin := candidate_not_in_path eng current
          (path ++ [current]) cand hcand2
        exact ih cand.1 (path ++ [current])
          (remE - calculateEnergyCost current cand.1)
          (nodup_append_singleton path current hnd hni) hnotin
          (by
            simp only [List.length_append, List.length_singleton]
            omega)
          tr htr2

/-- C2 (amended): for every token collection and the default parameters,
every trace returned by `generateTraces` has a path of length at most
`maxTraceLength + 1 = 11` (the terminal check happens *before* the
current token is appended, so paths of exactly 11 tokens are produced),
contains no token more than once, and is non-empty. -/
theorem c2_trace_bounds (tokens : List HToken) (rand : ℕ → ℕ → ℚ)
    (tr : Trace) (htr : tr ∈ generateTraces (defaultEngine tokens) rand) :
    tr.path.length ≤ 11 ∧ tr.path.Nodup ∧ tr.path ≠ [] := by
  unfold generateTraces at htr
  rw [mem_sortDescBy] at htr
  rcases List.mem_map.mp htr with ⟨itr, hitr, htr2⟩
  have hmem : itr.2 ∈ pruneTraces
      (((findAnchors (defaultEngine tokens)).map (fun anchor =>
        traceFromToken (defaultEngine tokens) anchor []
          (defaultEngine tokens).energy)).flatten) :=
    snd_mem_of_mem_enumFrom _ 0 itr hitr
  have hmem2 := pruneTraces_subset _ _ hmem
  rcases List.mem_flatten.mp hmem2 with ⟨lt, hlt, hmem3⟩
  rcases List.mem_map.mp hlt with ⟨anchor, _, rfl⟩
  have hspec := traceFromTokenAux_spec (defaultEngine tokens)
    ((defaultEngine tokens).maxTraceLength + 1 - ([] : List HToken).length)
    anchor [] (defaultEngine tokens).energy List.nodup_nil
    (List.not_mem_nil anchor) (by simp) itr.2 hmem3
  rw [← htr2]
  exact hspec

/-- Witness for C2: the first trace generated over three uniform tokens
satisfies the amended bounds. -/
theorem c2_trace_bounds_witness :
    (List.headD (generateTraces (defaultEngine threeTokens)
        (fun _ _ => 1/2)) ⟨[], 0, false, 0⟩) ∈
      generateTraces (defaultEngine threeTokens) (fun _ _ => 1/2) ∧
    ((List.headD (generateTraces (defaultEngine threeTokens)
        (fun _ _ => 1/2)) ⟨[], 0, false, 0⟩).path.length ≤ 11 ∧
     (List.headD (generateTraces (defaultEngine threeTokens)
        (fun _ _ => 1/2)) ⟨[], 0, false, 0⟩).path.Nodup ∧
     (List.headD (generateTraces (defaultEngine threeTokens)
        (fun _ _ => 1/2)) ⟨[], 0, false, 0⟩).path ≠ []) :=
  ⟨by with_unfolding_all decide,
   c2_trace_bounds threeTokens (fun _ _ => 1/2) _
     (by with_unfolding_all decide)⟩

/-- Taking `head?` of an append with a non-empty left part. -/
theorem head?_append_left {α : Type} (l l2 : List α) (h : l ≠ []) :
    (l ++ l2).head? = l.head? := by
  cases l with
  | nil => exact absurd rfl h
  | cons a t => rfl

set_option maxRecDepth 8000 in
/-- Down the chain of eleven uniform tokens, the first branch of the
recursion always extends the path by the next unused token, so the first
trace produced from token `10 - m` on path `take (10 - m)` is the full
eleven-token trace. -/
theorem eleven_head : ∀ m : ℕ, m ≤ 10 →
    (traceFromTokenAux (defaultEngine elevenTokens) (m + 1)
      (tok (10 - m)) (elevenTokens.take (10 - m)) 1).head? =
    some fullTrace := by
  have hB1 : ∀ k, k < 10 →
      ¬((defaultEngine elevenTokens).maxTraceLength ≤
          (elevenTokens.take k).length ∨ (1 : ℚ) < 1/10) := by
    with_unfolding_all decide
  have hB5 : ∀ k, k < 10 →
      elevenTokens.take k ++ [tok k] = elevenTokens.take (k + 1) := by
    with_unfolding_all decide
  have hB2 : ∀ k, k < 10 →
      findSkipCandidates (defaultEngine elevenTokens) (tok k)
        (elevenTokens.take (k + 1)) =
      (elevenTokens.drop (k + 1)).map (fun t => (t, 951/1600)) := by
    with_unfolding_all decide
  have hB3 : ∀ k, k < 10 →
      elevenTokens.drop (k + 1) = tok (k + 1) :: elevenTokens.drop (k + 2)
      := by
    with_unfolding_all decide
  have hB4 : ∀ k, k < 10 →
      (1 : ℚ) - calculateEnergyCost (tok k) (tok (k + 1)) = 1 := by
    with_unfolding_all decide
  intro m
  induction m with
  | zero =>
    intro _
    with_unfolding_all decide
  | succ n ih =>
    intro hm
    have hP := ih (by omega)
    have hk10 : 10 - (n + 1) < 10 := by omega
    have hk1 : 10 - n = (10 - (n + 1)) + 1 := by omega
    rw [hk1] at hP
    rw [traceFromTokenAux_succ]
    rw [if_neg (hB1 (10 - (n + 1)) hk10)]
    rw [hB5 (10 - (n + 1)) hk10]
    rw [hB2 (10 - (n + 1)) hk10, hB3 (10 - (n + 1)) hk10]
    rw [List.map_cons]
    simp only [List.isEmpty_cons, Bool.false_eq_true, if_false]
    rw [show (defaultEngine elevenTokens).branchingFactor = 2 + 1 from rfl,
      List.take_succ_cons, List.map_cons, List.flatten_cons]
    simp only
    rw [hB4 (10 - (n + 1)) hk10]
    rw [head?_append_left _ _ (by
      intro hnil
      rw [hnil] at hP
      exact absurd hP (by simp))]
    exact hP

/-- Keeping a trace in the accumulator survives the rest of the pruning
fold. -/
theorem prune_fold_mono (l : List Trace) :
    ∀ (acc : List Trace × List String) (t : Trace), t ∈ acc.1 →
      t ∈ (l.foldl (fun acc trace =>
        if acc.2.contains (traceSignature trace) then acc
        else if trace.path.length < 3 then acc
        else (acc.1 ++ [trace], acc.2 ++ [traceSignature trace])) acc).1
      := by
  induction l with
  | nil => intro acc t ht; exact ht
  | cons tr rest ih =>
    intro acc t ht
    simp only [List.foldl_cons]
    apply ih
    by_cases h1 : acc.2.contains (traceSignature tr)
    · rw [if_pos h1]; exact ht
    · rw [if_neg h1]
      by_cases h2 : tr.path.length < 3
      · rw [if_pos h2]; exact ht
      · rw [if_neg h2]
        exact List.mem_append.mpr (Or.inl ht)

/-- Any member of a list shows up in its enumeration. -/
theorem mem_enumFrom_of_mem {α : Type} :
    ∀ (l : List α) (x : α) (k : ℕ), x ∈ l → ∃ i, (i, x) ∈ l.enumFrom k
    := by
  intro l
  induction l with
  | nil => intro x k hx; exact absurd hx (List.not_mem_nil x)
  | cons a t ih =>
    intro x k hx
    rcases List.mem_cons.mp hx with h | h
    · exact ⟨k, by rw [List.enumFrom, h]; exact List.mem_cons_self _ _⟩
    · rcases ih x (k + 1) h with ⟨i, hi⟩
      exact ⟨i, by rw [List.enumFrom]; exact List.mem_cons.mpr (Or.inr hi)⟩

/-- C2 counterexample: with eleven uniform tokens and the default
parameters, `generateTraces` returns a trace whose path has 11 tokens —
`maxTraceLength + 1`, one more than the claimed bound `maxTraceLength`
(the terminal check fires before the current token is appended). -/
theorem c2_counterexample :
    ∃ tr ∈ generateTraces (defaultEngine elevenTokens) (fun _ _ => 1/2),
      10 < tr.path.length := by
  have h0 := eleven_head 10 (le_refl 10)
  have htok0 : (traceFromTokenAux (defaultEngine elevenTokens) 11 (tok 0)
      (elevenTokens.take 0) 1).head? = some fullTrace := h0
  have hanch : findAnchors (defaultEngine elevenTokens) =
      [tok 0, tok 1, tok 2, tok 3] := by
    with_unfolding_all decide
  set eng := defaultEngine elevenTokens with heng
  set f : HToken → List Trace :=
    fun anchor => traceFromToken eng anchor [] eng.energy with hf
  have hf0 : (f (tok 0)).head? = some fullTrace := htok0
  have hfne : f (tok 0) ≠ [] := by
    intro hnil
    rw [hf] at hnil
    have := hf0
    rw [hf, hnil] at this
    exact absurd this (by simp)
  have htraces : (((findAnchors eng).map f).flatten).head? =
      some fullTrace := by
    rw [hanch, List.map_cons, List.flatten_cons, head?_append_left _ _ hfne]
    exact hf0
  rcases hmemtr : ((findAnchors eng).map f).flatten with _ | ⟨t0, rest⟩
  · rw [hmemtr] at htraces
    exact absurd htraces (by simp)
  · rw [hmemtr] at htraces
    have ht0 : t0 = fullTrace := by
      injection htraces
    subst ht0
    have hstep : List.foldl (fun acc trace =>
        if acc.2.contains (traceSignature trace) then acc
        else if trace.path.length < 3 then acc
        else (acc.1 ++ [trace], acc.2 ++ [traceSignature trace]))
        (([] : List Trace), ([] : List String)) (fullTrace :: rest) =
        List.foldl (fun acc trace =>
        if acc.2.contains (traceSignature trace) then acc
        else if trace.path.length < 3 then acc
        else (acc.1 ++ [trace], acc.2 ++ [traceSignature trace]))
        ([fullTrace], [traceSignature fullTrace]) rest := by
      rw [List.foldl_cons]
      congr 1
    have hmemp : fullTrace ∈ pruneTraces (((findAnchors eng).map f).flatten)
        := by
      rw [hmemtr]
      unfold pruneTraces
      rw [hstep]
      exact prune_fold_mono rest ([fullTrace], [traceSignature fullTrace])
        fullTrace (List.mem_singleton.mpr rfl)
    rcases mem_enumFrom_of_mem _ fullTrace 0 hmemp with ⟨i, hi⟩
    refine ⟨fullTrace.withCoherence (calculateTraceCoherence eng fullTrace
      ((fun _ _ => (1 : ℚ)/2) i)), ?_, ?_⟩
    · unfold generateTraces
      rw [mem_sortDescBy]
      exact List.mem_map.mpr ⟨(i, fullTrace), hi, rfl⟩
    · show 10 < fullTrace.path.length
      with_unfolding_all decide

/-- The code's `resonanceWith` is the claim's resonance multiplied by the random
distance penalty. -/
theorem resonanceWith_factor (a b : HToken) (rand : ℚ) :
    resonanceWith a b rand =
      claimResonance a b * calculateDistancePenalty rand := by
  unfold resonanceWith claimResonance dimValues dimWeights
  simp only [List.zip, List.zipWith, List.map, List.sum_cons, List.sum_nil]
  ring

/-- The nested pair loop runs exactly `n(n-1)/2` times. -/
theorem pairIndices_length (n : ℕ) :
    (pairIndices n).length = n * (n - 1) / 2 := by
  unfold pairIndices
  rw [List.length_flatMap]
  have hcomp : ((fun i => List.length
        ((List.range (n - i - 1)).map (fun k => (i, i + 1 + k)))) :
        ℕ → ℕ) = fun i => n - 1 - i := by
    funext i
    rw [List.length_map, List.length_range]
    omega
  have hmaps : ∀ m : ℕ, ∀ f : ℕ → ℕ,
      ((List.range m).map f).sum = ∑ i ∈ Finset.range m, f i := by
    intro m
    induction m with
    | zero => intro f; rfl
    | succ m ih =>
      intro f
      rw [List.range_succ, List.map_append, List.sum_append,
        Finset.sum_range_succ, ih f]
      simp
  calc ((List.range n).map (List.length ∘ fun i =>
          (List.range (n - i - 1)).map (fun k => (i, i + 1 + k)))).sum
      = ((List.range n).map (fun i => n - 1 - i)).sum := by
        have : (List.length ∘ fun i =>
            (List.range (n - i - 1)).map (fun k => (i, i + 1 + k))) =
            fun i => n - 1 - i := by
          funext i
          simp only [Function.comp]
          rw [List.length_map, List.length_range]
          omega
        rw [this]
    _ = ∑ i ∈ Finset.range n, (n - 1 - i) := hmaps n _
    _ = ∑ i ∈ Finset.range n, i := Finset.sum_range_reflect (fun i => i) n
    _ = n * (n - 1) / 2 := Finset.sum_range_id n

/-- C4 (amended): for every trace of length `n ≥ 2`, the coherence score
equals the mean over all `n(n-1)/2` token pairs of the claim's
feature-vector resonance *multiplied by that pair's random distance
penalty* `0.8 + rand·0.2`, plus the energy-efficiency bonus
`0.2·(1 − energySpent/initialEnergy)`, capped at 1.0; a trace with fewer
than 2 tokens scores 0. -/
theorem c4_trace_coherence (eng : Engine) (trace : Trace)
    (rand : ℕ → ℚ) :
    calculateTraceCoherence eng trace rand =
      if trace.path.length < 2 then 0
      else
        min 1 (((pairIndices trace.path.length).enum.map (fun kij =>
          claimResonance (trace.path.getD kij.2.1 noToken)
            (trace.path.getD kij.2.2 noToken) *
          calculateDistancePenalty (rand kij.1))).sum /
            ((trace.path.length * (trace.path.length - 1) / 2 : ℕ) : ℚ) +
          (1 - trace.energy / eng.energy) * (2/10)) := by
  unfold calculateTraceCoherence
  by_cases hn : trace.path.length < 2
  · rw [if_pos hn, if_pos hn]
  · rw [if_neg hn, if_neg hn]
    have hpos : 0 < (pairIndices trace.path.length).length := by
      rw [pairIndices_length]
      push_neg at hn
      have h2 : 2 * 1 ≤ trace.path.length * (trace.path.length - 1) :=
        Nat.mul_le_mul hn (by omega)
      exact Nat.le_div_iff_mul_le (by norm_num) |>.mpr (by omega)
    dsimp only
    rw [if_pos hpos]
    simp only [resonanceWith_factor, pairIndices_length]

/-- C4 counterexample: on a two-token trace of identical tokens with the
whole energy budget spent and the random draws at 0.5, the code scores
`min(1, 1·0.9/1 + 0) = 0.9`, while the claim's penalty-free formula gives
`min(1, 1/1 + 0) = 1`. -/
theorem c4_counterexample :
    calculateTraceCoherence (defaultEngine [])
      ⟨[⟨0, "X", unifDims⟩, ⟨0, "X", unifDims⟩], 1, false, 0⟩
      (fun _ => 1/2) = 9/10 ∧
    claimCoherence (defaultEngine [])
      ⟨[⟨0, "X", unifDims⟩, ⟨0, "X", unifDims⟩], 1, false, 0⟩ = 1 ∧
    calculateTraceCoherence (defaultEngine [])
      ⟨[⟨0, "X", unifDims⟩, ⟨0, "X", unifDims⟩], 1, false, 0⟩
      (fun _ => 1/2) ≠
    claimCoherence (defaultEngine [])
      ⟨[⟨0, "X", unifDims⟩, ⟨0, "X", unifDims⟩], 1, false, 0⟩ := by
  with_unfolding_all decide

end Skip
